import Mathlib

/-!
# Bencode codec (`bencode/bencode.go`)

A shallow embedding of the Go package `bencode` and the properties of its
string codec, integer codec, tagged value accessors and tree encoder.

Modelling conventions

* A Go `string` / `[]byte` is a `List Byte`; a Go `int` is an `Int` (64 bit
  range checks are written out where the code depends on them, in `Atoi`);
  byte counts are `Nat`.
* A Go `error` is an `Option Error`, `none` being `nil`.
* A run-time panic (nil dereference, failed type assertion) is the `none`
  of an `Option` result.
* Standard-library calls (`strconv`, `bufio`, `io`) are embedded from their
  Go implementation; loops over a string carry explicit fuel.
* An allocation that the runtime accepts succeeds: `make([]byte, num)` panics
  only for a length that is negative or above `maxAlloc`.
-/

namespace bencode

/-- One byte. -/
abbrev Byte := UInt8

/-- The byte of an ASCII character literal, as in Go's `'i'`. -/
def ch (c : Char) : Byte := c.toNat.toUInt8

/-- The bytes of an ASCII string literal. -/
def bytes (s : String) : List Byte := s.toList.map ch

/-- The two causes a `*strconv.NumError` can carry. -/
inductive NumErrKind where
  | syntaxErr
  | rangeErr
  deriving DecidableEq, Repr

/-- Error values that can reach a caller of this package: the six package
sentinels (lines 10-17), the `io` sentinels, `*strconv.NumError` and the
error of a failing underlying writer. -/
inductive Error where
  | ErrNum
  | ErrCol
  | ErrEpI
  | ErrEpE
  | ErrTyp
  | ErrIvd
  | EOF
  | ErrUnexpectedEOF
  | ErrShortWrite
  | NumError (num : List Byte) (kind : NumErrKind)
  | ErrSink
  deriving DecidableEq, Repr

/-- The message of an error, `err.Error()`, for the package sentinels. -/
def Error.text : Error → String
  | .ErrNum => "expect num"
  | .ErrCol => "expect colon"
  | .ErrEpI => "expect char i"
  | .ErrEpE => "expect char e"
  | .ErrTyp => "wrong type"
  | .ErrIvd => "invalid bencode"
  | .EOF => "EOF"
  | .ErrUnexpectedEOF => "unexpected EOF"
  | .ErrShortWrite => "short write"
  | .NumError _ .syntaxErr => "invalid syntax"
  | .NumError _ .rangeErr => "value out of range"
  | .ErrSink => "write failed"

/-! ## strconv -/

/-- The test `b >= '0' && b <= '9'`. -/
def isDigit (b : Byte) : Bool := ch '0' ≤ b && b ≤ ch '9'

/-- The byte `'0' + d`. -/
def digitByte (d : Nat) : Byte := (48 + d).toUInt8

/-- The digit loop of `strconv.formatBits` for base 10: peel the last digit
while `u >= 10`, then emit the leading digit. -/
def formatBits : Nat → Nat → List Byte → List Byte
  | 0, _, acc => acc
  | fuel + 1, u, acc =>
    if u < 10 then digitByte u :: acc
    else formatBits fuel (u / 10) (digitByte (u % 10) :: acc)

/-- Decimal text of a natural number. -/
def formatNat (u : Nat) : List Byte := formatBits (u + 1) u []

/-- The function `strconv.Itoa`. -/
def Itoa (n : Int) : List Byte :=
  if n < 0 then ch '-' :: formatNat n.natAbs else formatNat n.toNat

/-- The digit loop of `strconv.ParseUint` for base 10, without the width
check: `none` at the first byte that is not a decimal digit. -/
def digitsValue : Nat → List Byte → Option Nat
  | acc, [] => some acc
  | acc, b :: t =>
    if isDigit b then digitsValue (acc * 10 + (b.toNat - 48)) t else none

/-- The function `strconv.Atoi` on a 64 bit platform: an optional sign, then
one or more decimal digits; a syntax error gives 0, a value outside the
`int` range gives the nearest bound and a range error. -/
def Atoi (s : List Byte) : Int × Option Error :=
  let neg : Bool := s.head? = some (ch '-')
  let body : List Byte :=
    match s with
    | [] => []
    | b :: t => if b = ch '+' ∨ b = ch '-' then t else b :: t
  if body = [] then (0, some (.NumError s .syntaxErr))
  else
    match digitsValue 0 body with
    | none => (0, some (.NumError s .syntaxErr))
    | some v =>
      if neg then
        if v ≤ 2 ^ 63 then (-(v : Int), none)
        else (-(2 ^ 63 : Int), some (.NumError s .rangeErr))
      else
        if v < 2 ^ 63 then ((v : Int), none)
        else ((2 ^ 63 : Int) - 1, some (.NumError s .rangeErr))

/-! ## Readers -/

/-- A `*bufio.Reader`: the bytes not yet read, from a source that delivers
them and then reports `io.EOF`. For an `io.Reader` that is not a
`*bufio.Reader`, `bufio.NewReader(r)` is the reader over the unread bytes
of `r`. -/
structure Reader where
  unread : List Byte
  deriving DecidableEq, Repr

/-- The method `(*bufio.Reader).ReadByte`: the next byte, or 0 and `io.EOF`. -/
def Reader.ReadByte (br : Reader) : Byte × Option Error × Reader :=
  match br.unread with
  | [] => (0, some .EOF, br)
  | b :: t => (b, none, ⟨t⟩)

/-- The runtime constant `maxAlloc` on a 64 bit platform such as
linux/amd64, `1 << 48`: the largest number of bytes one allocation may ask
for. -/
def maxAlloc : Nat := 2 ^ 48

/-- The call `make([]byte, num)` (line 120): `num` zero bytes, or a panic
(`makeslice: len out of range`), here `none`, when `num` is negative or above
`maxAlloc`. -/
def makeBytes (num : Int) : Option (List Byte) :=
  if 0 ≤ num ∧ num.toNat ≤ maxAlloc then some (List.replicate num.toNat 0) else none

/-- The call `io.ReadAtLeast(br, buf, len(buf))` (line 121): the buffer
after the call (the bytes read, then what the buffer held before), the error
and the reader. Nothing is read into an empty buffer; a source that ends
early gives `io.EOF` when no byte was read and `io.ErrUnexpectedEOF`
otherwise. -/
def ReadAtLeast (br : Reader) (buf : List Byte) : List Byte × Option Error × Reader :=
  let got := br.unread.take buf.length
  let err : Option Error :=
    if got.length ≥ buf.length then none
    else if got.length > 0 then some .ErrUnexpectedEOF
    else some .EOF
  (got ++ buf.drop got.length, err, ⟨br.unread.drop buf.length⟩)

/-- Outcome of a decoder: the value, the error and the reader afterwards. -/
structure Decoded (α : Type) where
  val : α
  err : Option Error
  rest : Reader
  deriving DecidableEq, Repr

/-- The first loop of `DecodeString` (lines 97-113): collects digits up to
the colon. Returns the error, the digits collected and the reader. -/
def DecodeString.scan : List Byte → List Byte → Option Error × List Byte × Reader
  | numBytes, [] => (some .EOF, numBytes, ⟨[]⟩)
  | numBytes, b :: t =>
    if isDigit b then DecodeString.scan (numBytes ++ [b]) t
    else if b = ch ':' then (none, numBytes, ⟨t⟩)
    else (some .ErrCol, numBytes, ⟨t⟩)

/-- The function `DecodeString` (lines 87-124). `none` is the panic of the
allocation at line 120; every other path returns. -/
def DecodeString (r : Reader) : Option (Decoded (List Byte)) :=
  match DecodeString.scan [] r.unread with
  | (some e, _, br) => some ⟨[], some e, br⟩
  | (none, numBytes, br) =>
    match Atoi numBytes with
    | (_, some e) => some ⟨[], some e, br⟩
    | (num, none) =>
      match makeBytes num with
      | none => none
      | some buf =>
        let (buf, err, br2) := ReadAtLeast br buf
        some ⟨buf, err, br2⟩

/-- The second loop of `DecodeInt` (lines 162-178): collects digits up to
the closing `e`. -/
def DecodeInt.scan : List Byte → List Byte → Option Error × List Byte × Reader
  | numBytes, [] => (some .EOF, numBytes, ⟨[]⟩)
  | numBytes, b :: t =>
    if isDigit b then DecodeInt.scan (numBytes ++ [b]) t
    else if b = ch 'e' then (none, numBytes, ⟨t⟩)
    else (some .ErrEpE, numBytes, ⟨t⟩)

/-- The function `DecodeInt` (lines 141-183). The errors of the first two
`ReadByte` calls are discarded by the code, which then sees the byte 0. -/
def DecodeInt (r : Reader) : Decoded Int :=
  let (b, _, br1) := r.ReadByte
  if b ≠ ch 'i' then ⟨0, some .ErrEpI, br1⟩
  else
    let (b, _, br2) := br1.ReadByte
    if b < ch '0' ∨ b > ch '9' ∨ b ≠ ch '-' then ⟨0, some .ErrCol, br2⟩
    else
      match DecodeInt.scan [b] br2.unread with
      | (some e, _, br3) => ⟨0, some e, br3⟩
      | (none, numBytes, br3) =>
        let (val, err) := Atoi numBytes
        ⟨val, err, br3⟩

/-! ## Writers -/

/-- An `io.Writer` that is not a `*bufio.Writer`: the bytes it has received,
how many more it accepts (`none`: every write succeeds; `some k`: it takes
`k` more bytes and fails the write that exceeds them), and whether its
dynamic type also implements `io.StringWriter`. -/
structure Sink where
  received : List Byte
  room : Option Nat
  stringWriter : Bool
  deriving DecidableEq, Repr

/-- The method `Write` (and `WriteString`) of the underlying writer: the sink
afterwards, the number of bytes taken and the error. -/
def Sink.Write (w : Sink) (p : List Byte) : Sink × Nat × Option Error :=
  match w.room with
  | none => ({ w with received := w.received ++ p }, p.length, none)
  | some k =>
    if p.length ≤ k then
      ({ w with received := w.received ++ p, room := some (k - p.length) }, p.length, none)
    else
      ({ w with received := w.received ++ p.take k, room := some 0 }, k, some .ErrSink)

/-- A `*bufio.Writer`: the sticky error `err`, the buffered bytes
`buf[0:n]`, the buffer size `len(buf)` and the underlying writer `wr`. Every
writer made by `bufio.NewWriter` or `bufio.NewWriterSize` has `size ≥ 1`. -/
structure Writer where
  err : Option Error
  buf : List Byte
  size : Nat
  wr : Sink
  deriving DecidableEq, Repr

/-- The call `bufio.NewWriter(w)` on a writer that is not a `*bufio.Writer`. -/
def NewWriter (w : Sink) : Writer := ⟨none, [], 4096, w⟩

/-- The method `(*bufio.Writer).Available`. -/
def Writer.Available (b : Writer) : Nat := b.size - b.buf.length

/-- The method `(*bufio.Writer).Buffered`. -/
def Writer.Buffered (b : Writer) : Nat := b.buf.length

/-- The method `(*bufio.Writer).Flush`. -/
def Writer.Flush (b : Writer) : Writer × Option Error :=
  match b.err with
  | some e => (b, some e)
  | none =>
    if b.buf.length = 0 then (b, none)
    else
      match b.wr.Write b.buf with
      | (wr, n, err) =>
        let err : Option Error :=
          if n < b.buf.length ∧ err = none then some .ErrShortWrite else err
        match err with
        | some e => ({ b with wr := wr, buf := b.buf.drop n, err := some e }, some e)
        | none => ({ b with wr := wr, buf := [] }, none)

/-- The method `(*bufio.Writer).WriteByte`. -/
def Writer.WriteByte (b : Writer) (c : Byte) : Writer × Option Error :=
  match b.err with
  | some e => (b, some e)
  | none =>
    if b.Available ≤ 0 then
      match b.Flush with
      | (b1, some _) => (b1, b1.err)
      | (b1, none) => ({ b1 with buf := b1.buf ++ [c] }, none)
    else ({ b with buf := b.buf ++ [c] }, none)

/-- The loop of `(*bufio.Writer).WriteString`: while the rest of the string
does not fit and no error is set, either hand it to the underlying
`io.StringWriter` (empty buffer) or fill the buffer and flush. Returns the
writer, the rest of the string and the count so far. -/
def Writer.WriteString.loop : Nat → Writer → List Byte → Nat → Writer × List Byte × Nat
  | 0, b, s, nn => (b, s, nn)
  | fuel + 1, b, s, nn =>
    if s.length > b.Available ∧ b.err = none then
      if b.Buffered = 0 ∧ b.wr.stringWriter = true then
        match b.wr.Write s with
        | (wr, n, err) =>
          Writer.WriteString.loop fuel { b with wr := wr, err := err } (s.drop n) (nn + n)
      else
        let n := min b.Available s.length
        let b1 : Writer := { b with buf := b.buf ++ s.take n }
        Writer.WriteString.loop fuel b1.Flush.1 (s.drop n) (nn + n)
    else (b, s, nn)

/-- The method `(*bufio.Writer).WriteString`. Only the first round of the
loop can copy nothing (a full buffer), so `len(s) + 2` rounds are enough. -/
def Writer.WriteString (b : Writer) (s : List Byte) : Writer × Nat × Option Error :=
  match Writer.WriteString.loop (s.length + 2) b s 0 with
  | (b1, s1, nn) =>
    match b1.err with
    | some e => (b1, nn, some e)
    | none => ({ b1 with buf := b1.buf ++ s1 }, nn + s1.length, none)

/-- An `io.Writer` argument: either a `*bufio.Writer` or any other writer. -/
inductive GoWriter where
  | bufio (b : Writer)
  | raw (s : Sink)
  deriving DecidableEq, Repr

/-- The preamble shared by the three encoders:
`bw, ok := w.(*bufio.Writer); if !ok { bw = bufio.NewWriter(w) }`. -/
def GoWriter.toBufio : GoWriter → Writer
  | .bufio b => b
  | .raw s => NewWriter s

/-- State of the caller's writer once the callee is done with `bw`: the
`*bufio.Writer` itself when the caller passed one, otherwise the underlying
writer (the temporary `bufio.Writer` and what it still buffers are dropped). -/
def GoWriter.after (w : GoWriter) (bw : Writer) : GoWriter :=
  match w with
  | .bufio _ => .bufio bw
  | .raw _ => .raw bw.wr

/-- The writer that finally receives the bytes. -/
def GoWriter.sink : GoWriter → Sink
  | .bufio b => b.wr
  | .raw s => s

/-- Bytes buffered in the caller's writer and not yet forwarded. -/
def GoWriter.pending : GoWriter → List Byte
  | .bufio b => b.buf
  | .raw _ => []

/-- Every byte the caller's output stream has received so far. -/
def GoWriter.written (w : GoWriter) : List Byte := w.sink.received ++ w.pending

/-- An output stream whose writes all succeed: the underlying writer never
fails and, for a `*bufio.Writer`, no earlier error is stored. -/
def GoWriter.healthy : GoWriter → Bool
  | .bufio b => b.err.isNone && b.wr.room.isNone
  | .raw s => s.room.isNone

/-- A `*bufio.Writer` whose writes all succeed: no stored error and an
underlying writer that never fails. -/
def Writer.ok (b : Writer) : Bool := b.err.isNone && b.wr.room.isNone

/-- Every byte a `*bufio.Writer` has taken: forwarded or still buffered. -/
def Writer.written (b : Writer) : List Byte := b.wr.received ++ b.buf

/-! ## The string and integer encoders -/

/-- The function `EncodeString` (lines 63-85). -/
def EncodeString (w : GoWriter) (val : List Byte) : GoWriter × Nat :=
  let strLen := val.length
  let bw := w.toBufio
  let lenStr := Itoa strLen
  let wLen := lenStr.length
  let bw := (bw.WriteString lenStr).1
  let bw := (bw.WriteByte (ch ':')).1
  let wLen := wLen + 1
  let bw := (bw.WriteString val).1
  let wLen := wLen + strLen
  match bw.Flush with
  | (bw, some _) => (w.after bw, 0)
  | (bw, none) => (w.after bw, wLen)

/-- The function `EncodeInt` (lines 126-139). There is no `Flush`. -/
def EncodeInt (w : GoWriter) (val : Int) : GoWriter × Nat :=
  let bw := w.toBufio
  let bw := (bw.WriteByte (ch 'i')).1
  let wLen := 1
  let valStr := Itoa val
  let bw := (bw.WriteString valStr).1
  let wLen := wLen + valStr.length
  let bw := (bw.WriteByte (ch 'e')).1
  let wLen := wLen + 1
  (w.after bw, wLen)

/-! ## Values -/

/-- The type `BType`, a byte. -/
abbrev BType := UInt8

/-- Tag of a string. -/
def BSTR : BType := 1
/-- Tag of an integer. -/
def BINT : BType := 2
/-- Tag of a list. -/
def BLIST : BType := 3
/-- Tag of a dictionary. -/
def BDICT : BType := 4

mutual
/-- The type `BValue` (`interface{}`): the dynamic values the accessors
assert (`string`, `int`, `[]*BObject`, `map[string]*BObject`) and `other`
for anything else. A map is the list of its entries in the order in which
`range` yields them. -/
inductive BValue where
  | str (s : List Byte)
  | int (n : Int)
  | list (l : List BObject)
  | dict (d : List (List Byte × BObject))
  | other
/-- A `*BObject`: the nil pointer, or a struct with its two fields. -/
inductive BObject where
  | null
  | obj (type_ : BType) (val_ : BValue)
end

/-- Go's `int`, under a name that the accessor `Int` does not shadow. -/
abbrev GoInt := Int

/-- Go's `string`, a byte sequence. -/
abbrev GoString := List Byte

/-- A `[]*BObject`. -/
abbrev Objects := List BObject

/-- A `map[string]*BObject`, as the entries in iteration order. -/
abbrev Entries := List (List Byte × BObject)

/-- The method `Str` (lines 35-40). -/
def BObject.Str : BObject → Option (GoString × Option Error)
  | .null => none
  | .obj type_ val_ =>
    if type_ ≠ BSTR then some ([], some .ErrTyp)
    else
      match val_ with
      | .str s => some (s, none)
      | _ => none

/-- The method `Int` (lines 42-47). -/
def BObject.Int : BObject → Option (GoInt × Option Error)
  | .null => none
  | .obj type_ val_ =>
    if type_ ≠ BINT then some (0, some .ErrTyp)
    else
      match val_ with
      | .int n => some (n, none)
      | _ => none

/-- The method `List` (lines 49-54); the nil slice is the empty list. -/
def BObject.List : BObject → Option (Objects × Option Error)
  | .null => none
  | .obj type_ val_ =>
    if type_ ≠ BLIST then some ([], some .ErrTyp)
    else
      match val_ with
      | .list l => some (l, none)
      | _ => none

/-- The method `Dict` (lines 56-61); the nil map is the empty list. -/
def BObject.Dict : BObject → Option (Entries × Option Error)
  | .null => none
  | .obj type_ val_ =>
    if type_ ≠ BDICT then some ([], some .ErrTyp)
    else
      match val_ with
      | .dict d => some (d, none)
      | _ => none

mutual
/-- The method `Bencode` (lines 185-220). `none` is a panic: a nil receiver,
or a payload that fails the accessor's type assertion. The recursive calls
and the calls of `EncodeString` receive `bw`, a `*bufio.Writer`. -/
def BObject.Bencode (o : BObject) (w : GoWriter) : Option (GoWriter × Nat) :=
  let bw := w.toBufio
  match o with
  | .null => none
  | .obj type_ val_ =>
    if type_ = BSTR then
      match val_ with
      | .str str =>
        let r := EncodeString (.bufio bw) str
        some (w.after r.1.toBufio.Flush.1, r.2)
      | _ => none
    else if type_ = BINT then
      match val_ with
      | .int val =>
        let r := EncodeInt (.bufio bw) val
        some (w.after r.1.toBufio.Flush.1, r.2)
      | _ => none
    else if type_ = BLIST then
      let bw := (bw.WriteByte (ch 'l')).1
      match val_ with
      | .list list =>
        match BObject.Bencode.elems list bw 0 with
        | none => none
        | some (bw, wLen) =>
          let bw := (bw.WriteByte (ch 'e')).1
          some (w.after bw.Flush.1, wLen + 2)
      | _ => none
    else if type_ = BDICT then
      let bw := (bw.WriteByte (ch 'd')).1
      match val_ with
      | .dict dict =>
        match BObject.Bencode.pairs dict bw 0 with
        | none => none
        | some (bw, wLen) =>
          let bw := (bw.WriteByte (ch 'e')).1
          some (w.after bw.Flush.1, wLen + 2)
      | _ => none
    else some (w.after bw.Flush.1, 0)
/-- The loop `for _, elem := range list { wLen += elem.Bencode(bw) }`. -/
def BObject.Bencode.elems : Objects → Writer → Nat → Option (Writer × Nat)
  | [], bw, wLen => some (bw, wLen)
  | elem :: rest, bw, wLen =>
    match BObject.Bencode elem (.bufio bw) with
    | none => none
    | some (w1, n) => BObject.Bencode.elems rest w1.toBufio (wLen + n)
/-- The loop `for k, v := range dict { wLen += EncodeString(bw, k);
wLen += v.Bencode(bw) }`, over the entries in the order `range` yields. -/
def BObject.Bencode.pairs : Entries → Writer → Nat → Option (Writer × Nat)
  | [], bw, wLen => some (bw, wLen)
  | (k, v) :: rest, bw, wLen =>
    let r := EncodeString (.bufio bw) k
    match BObject.Bencode v (.bufio r.1.toBufio) with
    | none => none
    | some (w1, n) => BObject.Bencode.pairs rest w1.toBufio (wLen + r.2 + n)
end

/-! ## Specification vocabulary -/

mutual
/-- A well-formed tree: no nil pointer, every tag one of the four constants
and every payload of the dynamic type its tag announces, at every depth. -/
def BObject.wellFormed : BObject → Bool
  | .null => false
  | .obj type_ (.str _) => type_ = BSTR
  | .obj type_ (.int _) => type_ = BINT
  | .obj type_ (.list l) => type_ = BLIST && BObject.wellFormed.elems l
  | .obj type_ (.dict d) => type_ = BDICT && BObject.wellFormed.pairs d
  | .obj _ .other => false
/-- Every element of a slice is well formed. -/
def BObject.wellFormed.elems : Objects → Bool
  | [] => true
  | e :: rest => BObject.wellFormed e && BObject.wellFormed.elems rest
/-- Every value of a map is well formed. -/
def BObject.wellFormed.pairs : Entries → Bool
  | [] => true
  | (_, v) :: rest => BObject.wellFormed v && BObject.wellFormed.pairs rest
end

/-- The bytes `EncodeString` writes for a string: length, colon, payload. -/
def stringWire (s : List Byte) : List Byte := Itoa s.length ++ ch ':' :: s

mutual
/-- The byte sequence that lines 192-216 write for a well-formed tree, read
off without the writer: a dictionary contributes its entries in the order
in which `range` yields them. -/
def BObject.wire : BObject → GoString
  | .null => []
  | .obj _ (.str s) => stringWire s
  | .obj _ (.int n) => ch 'i' :: Itoa n ++ [ch 'e']
  | .obj _ (.list l) => ch 'l' :: BObject.wire.elems l ++ [ch 'e']
  | .obj _ (.dict d) => ch 'd' :: BObject.wire.pairs d ++ [ch 'e']
  | .obj _ .other => []
/-- Concatenated bytes of the elements, in slice order. -/
def BObject.wire.elems : Objects → GoString
  | [] => []
  | e :: rest => BObject.wire e ++ BObject.wire.elems rest
/-- Concatenated bytes of the entries, key then value, in iteration order. -/
def BObject.wire.pairs : Entries → GoString
  | [] => []
  | (k, v) :: rest => stringWire k ++ BObject.wire v ++ BObject.wire.pairs rest
end

/-- The encoder delivers exactly `out`: on every output stream whose writes
all succeed, `Bencode` returns, the stream has received `out` after what it
had before, and nothing is left in a buffer. -/
def BObject.emits (o : BObject) (out : GoString) : Prop :=
  ∀ w : GoWriter, w.healthy = true →
    ∃ w1 n, o.Bencode w = some (w1, n) ∧ w1.written = w.written ++ out ∧ w1.pending = []

/-- An underlying writer that has received nothing and never fails. -/
def Sink.fresh : Sink := ⟨[], none, false⟩


/-- Go's `<` on strings: lexicographic order of the raw bytes. -/
def strLess : List Byte → List Byte → Bool
  | _, [] => false
  | [], _ :: _ => true
  | a :: s, b :: t => a < b || (a = b && strLess s t)

/-- The keys of the entries are in strictly ascending raw-byte order. -/
def keysAscending : Entries → Bool
  | [] => true
  | [_] => true
  | (k1, _) :: (k2, v2) :: rest => strLess k1 k2 && keysAscending ((k2, v2) :: rest)

/-- Insert an entry before the first entry whose key is not smaller. -/
def insertByKey (e : List Byte × BObject) : Entries → Entries
  | [] => [e]
  | x :: rest => if strLess x.1 e.1 then x :: insertByKey e rest else e :: x :: rest

/-- The entries in ascending order of their keys. -/
def sortByKey : Entries → Entries
  | [] => []
  | e :: rest => insertByKey e (sortByKey rest)

/-- Dictionary encoding in the words of the specification (sections 4.4 and
6): `d`, then the pairs in ascending raw-byte order of the keys, each key
encoded as a string followed by the encoding of its value, then `e`. -/
def specDictWire (d : Entries) : List Byte :=
  ch 'd' :: (sortByKey d).flatMap (fun kv => stringWire kv.1 ++ kv.2.wire) ++ [ch 'e']

/-- Canonical decimal text `d` of the integer `n`: a leading `-` exactly when
`n < 0`, then a non-empty run of ASCII digits that denotes the absolute
value, with no leading zero unless the run is the single digit `0`, and
never `-0`. -/
def canonicalDecimal (n : Int) (d : List Byte) : Prop :=
  ∃ ds : List Byte,
    d = (if n < 0 then [ch '-'] else []) ++ ds ∧ ds ≠ [] ∧
    (∀ b ∈ ds, isDigit b = true) ∧ digitsValue 0 ds = some n.natAbs ∧
    (ds.head? = some (ch '0') → ds = [ch '0']) ∧ (n < 0 → ds ≠ [ch '0'])

/-- An underlying writer that has received nothing and fails every write of
one byte or more. -/
def Sink.broken : Sink := ⟨[], some 0, false⟩

/-- The tag announced by the first byte of an encoding: `i`, `l` and `d`
open an integer, a list and a dictionary; a string opens with a digit. -/
def leadTag (c : Byte) : BType :=
  if c = ch 'i' then BINT else if c = ch 'l' then BLIST else if c = ch 'd' then BDICT else BSTR

/-! ## Lemmas: strconv -/

theorem isDigit_digitByte (d : Nat) (h : d < 10) : isDigit (digitByte d) = true := by
  interval_cases d <;> decide

theorem digitByte_toNat (d : Nat) (h : d < 10) : (digitByte d).toNat - 48 = d := by
  interval_cases d <;> decide

theorem formatBits_acc (u : Nat) :
    ∀ fuel acc, u < fuel → formatBits fuel u acc = formatNat u ++ acc := by
  induction u using Nat.strong_induction_on with
  | _ u ih =>
    intro fuel acc hfuel
    obtain ⟨f, rfl⟩ : ∃ f, fuel = f + 1 := ⟨fuel - 1, by omega⟩
    by_cases hu : u < 10
    · simp [formatNat, formatBits, hu]
    · have hdiv : u / 10 < u := by omega
      have h1 := ih (u / 10) hdiv f (digitByte (u % 10) :: acc) (by omega)
      have h2 := ih (u / 10) hdiv u [digitByte (u % 10)] hdiv
      simp only [formatNat, formatBits, hu, if_false] at *
      rw [h1, h2]
      simp

theorem formatNat_small (u : Nat) (h : u < 10) : formatNat u = [digitByte u] := by
  simp [formatNat, formatBits, h]

theorem formatNat_step (u : Nat) (h : ¬ u < 10) :
    formatNat u = formatNat (u / 10) ++ [digitByte (u % 10)] := by
  have hdiv : u / 10 < u := by omega
  have h2 := formatBits_acc (u / 10) u [digitByte (u % 10)] hdiv
  simp only [formatNat, formatBits, h, if_false] at *
  exact h2

theorem formatNat_ne_nil (u : Nat) : formatNat u ≠ [] := by
  by_cases h : u < 10
  · simp [formatNat_small u h]
  · simp [formatNat_step u h]

theorem formatNat_digits (u : Nat) : ∀ b ∈ formatNat u, isDigit b = true := by
  induction u using Nat.strong_induction_on with
  | _ u ih =>
    by_cases h : u < 10
    · simp [formatNat_small u h, isDigit_digitByte u h]
    · intro b hb
      rw [formatNat_step u h] at hb
      rcases List.mem_append.mp hb with hb | hb
      · exact ih (u / 10) (by omega) b hb
      · simp at hb
        subst hb
        exact isDigit_digitByte _ (by omega)

theorem digitsValue_append (xs ys : List Byte) :
    ∀ a, digitsValue a (xs ++ ys) = (digitsValue a xs).bind (fun v => digitsValue v ys) := by
  induction xs with
  | nil => intro a; simp [digitsValue]
  | cons x xs ih =>
    intro a
    by_cases hx : isDigit x = true
    · simp [digitsValue, hx, ih]
    · simp [digitsValue, hx]

theorem digitsValue_formatNat (u : Nat) : digitsValue 0 (formatNat u) = some u := by
  induction u using Nat.strong_induction_on with
  | _ u ih =>
    by_cases h : u < 10
    · simp [formatNat_small u h, digitsValue, isDigit_digitByte u h, digitByte_toNat u h]
    · rw [formatNat_step u h, digitsValue_append, ih (u / 10) (by omega)]
      have hm : u % 10 < 10 := by omega
      simp only [Option.some_bind, digitsValue, isDigit_digitByte _ hm, digitByte_toNat _ hm,
        if_true]
      congr 1
      omega

theorem Itoa_ofNat (n : Nat) : Itoa (n : Int) = formatNat n := by
  simp [Itoa]

theorem isDigit_ne_sign (b : Byte) (h : isDigit b = true) : b ≠ ch '+' ∧ b ≠ ch '-' := by
  constructor <;> (intro hb; subst hb; revert h; decide)

theorem Atoi_formatNat (n : Nat) (h : n < 2 ^ 63) : Atoi (formatNat n) = ((n : Int), none) := by
  have hne := formatNat_ne_nil n
  have hd := formatNat_digits n
  have hv := digitsValue_formatNat n
  match hf : formatNat n with
  | [] => exact absurd hf hne
  | b :: t =>
    rw [hf] at hd hv
    have hb := isDigit_ne_sign b (hd b (by simp))
    have h63 : n < 9223372036854775808 := by simpa using h
    simp [Atoi, hb.1, hb.2, hv, h63]

/-! ## Lemmas: writers whose writes all succeed -/

theorem Writer.ok_iff (b : Writer) : b.ok = true ↔ b.err = none ∧ b.wr.room = none := by
  simp [Writer.ok, Option.isNone_iff_eq_none]

theorem Writer.Flush_ok (b : Writer) (h : b.ok = true) :
    b.Flush = ({ b with wr := { b.wr with received := b.written }, buf := [] }, none) := by
  obtain ⟨err, buf, size, ⟨recv, room, sw⟩⟩ := b
  obtain ⟨h1, h2⟩ := (Writer.ok_iff _).mp h
  simp only at h1 h2
  subst h1 h2
  cases buf with
  | nil => simp [Writer.Flush, Writer.written]
  | cons x xs => simp [Writer.Flush, Sink.Write, Writer.written]

theorem Writer.Flush_ok_spec (b : Writer) (h : b.ok = true) :
    b.Flush.1.ok = true ∧ b.Flush.1.written = b.written ∧ b.Flush.1.buf = [] ∧
      b.Flush.2 = none := by
  rw [Writer.Flush_ok b h]
  obtain ⟨h1, h2⟩ := (Writer.ok_iff _).mp h
  simp [Writer.ok, Writer.written, h1, h2]

theorem Writer.WriteByte_ok (b : Writer) (c : Byte) (h : b.ok = true) :
    (b.WriteByte c).1.ok = true ∧ (b.WriteByte c).1.written = b.written ++ [c] := by
  obtain ⟨h1, h2⟩ := (Writer.ok_iff _).mp h
  by_cases hav : b.Available ≤ 0
  · have hf := Writer.Flush_ok b h
    simp [Writer.WriteByte, h1, hav, hf, Writer.ok, Writer.written, h2]
  · simp [Writer.WriteByte, h1, hav, Writer.ok, Writer.written, h2]

theorem Writer.WriteString_loop_ok (fuel : Nat) :
    ∀ (b : Writer) (s : List Byte) (nn : Nat), b.ok = true →
      (Writer.WriteString.loop fuel b s nn).1.ok = true ∧
      (Writer.WriteString.loop fuel b s nn).1.written ++ (Writer.WriteString.loop fuel b s nn).2.1
        = b.written ++ s ∧
      (Writer.WriteString.loop fuel b s nn).2.2 + (Writer.WriteString.loop fuel b s nn).2.1.length
        = nn + s.length := by
  induction fuel with
  | zero => intro b s nn h; simp [Writer.WriteString.loop, h]
  | succ fuel ih =>
    intro b s nn h
    obtain ⟨h1, h2⟩ := (Writer.ok_iff _).mp h
    unfold Writer.WriteString.loop
    by_cases hc : s.length > b.Available ∧ b.err = none
    · rw [if_pos hc]
      by_cases hd : b.Buffered = 0 ∧ b.wr.stringWriter = true
      · rw [if_pos hd]
        have hbuf : b.buf = [] := by
          have := hd.1
          simpa [Writer.Buffered] using this
        have hw : b.wr.Write s = ({ b.wr with received := b.wr.received ++ s }, s.length, none) := by
          simp [Sink.Write, h2]
        rw [hw]
        simp only
        have hok : ({ b with wr := { b.wr with received := b.wr.received ++ s }, err := none }
            : Writer).ok = true := by
          simp [Writer.ok, h2]
        obtain ⟨i1, i2, i3⟩ := ih _ (s.drop s.length) (nn + s.length) hok
        refine ⟨i1, ?_, ?_⟩
        · rw [i2]; simp [Writer.written, hbuf]
        · rw [i3]; simp
      · rw [if_neg hd]
        simp only
        have hok : ({ b with buf := b.buf ++ s.take (min b.Available s.length) } : Writer).ok
            = true := by
          simp [Writer.ok, h1, h2]
        obtain ⟨f1, f2, _, _⟩ := Writer.Flush_ok_spec _ hok
        obtain ⟨i1, i2, i3⟩ := ih _ (s.drop (min b.Available s.length))
          (nn + min b.Available s.length) f1
        refine ⟨i1, ?_, ?_⟩
        · rw [i2, f2]
          simp [Writer.written, List.append_assoc]
        · rw [i3]
          simp only [List.length_drop]
          omega
    · rw [if_neg hc]
      simp [h]

theorem Writer.WriteString_ok (b : Writer) (s : List Byte) (h : b.ok = true) :
    (b.WriteString s).1.ok = true ∧ (b.WriteString s).1.written = b.written ++ s ∧
      (b.WriteString s).2.1 = s.length := by
  obtain ⟨i1, i2, i3⟩ := Writer.WriteString_loop_ok (s.length + 2) b s 0 h
  obtain ⟨j1, j2⟩ := (Writer.ok_iff _).mp i1
  unfold Writer.WriteString
  generalize Writer.WriteString.loop (s.length + 2) b s 0 = r at *
  obtain ⟨b1, s1, nn⟩ := r
  simp only at i1 i2 i3 j1 j2
  simp only [j1]
  refine ⟨?_, ?_, ?_⟩
  · simp [Writer.ok, j1, j2]
  · rw [← i2]; simp [Writer.written]
  · simpa using i3

/-! ## Lemmas: the encoders on a stream whose writes all succeed -/

theorem GoWriter.toBufio_ok (w : GoWriter) : w.toBufio.ok = w.healthy := by
  cases w <;> simp [GoWriter.toBufio, GoWriter.healthy, Writer.ok, NewWriter]

theorem GoWriter.toBufio_written (w : GoWriter) : w.toBufio.written = w.written := by
  cases w <;> simp [GoWriter.toBufio, GoWriter.written, Writer.written, NewWriter,
    GoWriter.sink, GoWriter.pending]

theorem GoWriter.after_spec (w : GoWriter) (bw : Writer) (hok : bw.ok = true)
    (hbuf : bw.buf = []) :
    (w.after bw).healthy = true ∧ (w.after bw).written = bw.written ∧
      (w.after bw).pending = [] := by
  obtain ⟨h1, h2⟩ := (Writer.ok_iff _).mp hok
  cases w <;> simp [GoWriter.after, GoWriter.healthy, GoWriter.written, Writer.written,
    GoWriter.sink, GoWriter.pending, h1, h2, hbuf]

theorem EncodeString_healthy (w : GoWriter) (s : List Byte) (h : w.healthy = true) :
    (EncodeString w s).1.healthy = true ∧
      (EncodeString w s).1.written = w.written ++ stringWire s ∧
      (EncodeString w s).1.pending = [] ∧
      (EncodeString w s).2 = (Itoa s.length).length + 1 + s.length := by
  have h0 : w.toBufio.ok = true := by rw [GoWriter.toBufio_ok]; exact h
  obtain ⟨a1, a2, _⟩ := Writer.WriteString_ok w.toBufio (Itoa s.length) h0
  obtain ⟨b1, b2⟩ := Writer.WriteByte_ok _ (ch ':') a1
  obtain ⟨c1, c2, _⟩ := Writer.WriteString_ok _ s b1
  obtain ⟨d1, d2, d3, d4⟩ := Writer.Flush_ok_spec _ c1
  obtain ⟨e1, e2, e3⟩ := GoWriter.after_spec w _ d1 d3
  have hfl : ∀ x : Writer × Option Error, x.2 = none → x = (x.1, none) := by
    intro x hx; cases x; simp_all
  have hf := hfl _ d4
  unfold EncodeString
  simp only
  rw [hf]
  simp only
  refine ⟨e1, ?_, e3, trivial⟩
  rw [e2, d2, c2, b2, a2, GoWriter.toBufio_written]
  simp [stringWire]

theorem EncodeInt_bufio (bw : Writer) (n : Int) (h : bw.ok = true) :
    ∃ bw1, EncodeInt (.bufio bw) n = (.bufio bw1, (Itoa n).length + 2) ∧ bw1.ok = true ∧
      bw1.written = bw.written ++ (ch 'i' :: Itoa n ++ [ch 'e']) := by
  obtain ⟨a1, a2⟩ := Writer.WriteByte_ok bw (ch 'i') h
  obtain ⟨b1, b2, _⟩ := Writer.WriteString_ok _ (Itoa n) a1
  obtain ⟨c1, c2⟩ := Writer.WriteByte_ok _ (ch 'e') b1
  refine ⟨_, ?_, c1, ?_⟩
  · simp only [EncodeInt, GoWriter.toBufio, GoWriter.after]
    congr 1
    omega
  · rw [c2, b2, a2]
    simp

theorem BType_distinct :
    BSTR ≠ BINT ∧ BSTR ≠ BLIST ∧ BSTR ≠ BDICT ∧ BINT ≠ BLIST ∧ BINT ≠ BDICT ∧ BLIST ≠ BDICT := by
  decide

theorem GoWriter.bufio_healthy (bw : Writer) : (GoWriter.bufio bw).healthy = bw.ok := rfl

theorem GoWriter.bufio_written (bw : Writer) : (GoWriter.bufio bw).written = bw.written := rfl

theorem GoWriter.bufio_toBufio (bw : Writer) : (GoWriter.bufio bw).toBufio = bw := rfl

theorem stringWire_length (s : List Byte) :
    (stringWire s).length = (Itoa s.length).length + 1 + s.length := by
  simp [stringWire]
  omega

theorem EncodeString_bufio (bw : Writer) (s : List Byte) (h : bw.ok = true) :
    ∃ bw1, EncodeString (.bufio bw) s = (.bufio bw1, (stringWire s).length) ∧ bw1.ok = true ∧
      bw1.written = bw.written ++ stringWire s ∧ bw1.buf = [] := by
  obtain ⟨a1, a2, _⟩ := Writer.WriteString_ok bw (Itoa s.length) h
  obtain ⟨b1, b2⟩ := Writer.WriteByte_ok _ (ch ':') a1
  obtain ⟨c1, c2, _⟩ := Writer.WriteString_ok _ s b1
  obtain ⟨d1, d2, d3, d4⟩ := Writer.Flush_ok_spec _ c1
  have hfl : ∀ x : Writer × Option Error, x.2 = none → x = (x.1, none) := by
    intro x hx; cases x; simp_all
  have hf := hfl _ d4
  refine ⟨_, ?_, d1, ?_, d3⟩
  · unfold EncodeString
    simp only [GoWriter.toBufio, GoWriter.after]
    rw [hf, stringWire_length]
  · rw [d2, c2, b2, a2]
    simp [stringWire]

theorem Bencode_str_eq (s : List Byte) (w : GoWriter) :
    (BObject.obj BSTR (.str s)).Bencode w
      = some (w.after (EncodeString (.bufio w.toBufio) s).1.toBufio.Flush.1,
          (EncodeString (.bufio w.toBufio) s).2) := by
  rfl

theorem Bencode_int_eq (n : Int) (w : GoWriter) :
    (BObject.obj BINT (.int n)).Bencode w
      = some (w.after (EncodeInt (.bufio w.toBufio) n).1.toBufio.Flush.1,
          (EncodeInt (.bufio w.toBufio) n).2) := by
  rfl

theorem Bencode_list_eq (l : Objects) (w : GoWriter) :
    (BObject.obj BLIST (.list l)).Bencode w
      = match BObject.Bencode.elems l (w.toBufio.WriteByte (ch 'l')).1 0 with
        | none => none
        | some (bw, wLen) => some (w.after (bw.WriteByte (ch 'e')).1.Flush.1, wLen + 2) := by
  rfl

theorem Bencode_dict_eq (d : Entries) (w : GoWriter) :
    (BObject.obj BDICT (.dict d)).Bencode w
      = match BObject.Bencode.pairs d (w.toBufio.WriteByte (ch 'd')).1 0 with
        | none => none
        | some (bw, wLen) => some (w.after (bw.WriteByte (ch 'e')).1.Flush.1, wLen + 2) := by
  rfl

theorem Bencode_elems_cons (e : BObject) (rest : Objects) (bw : Writer) (wLen : Nat) :
    BObject.Bencode.elems (e :: rest) bw wLen
      = match BObject.Bencode e (.bufio bw) with
        | none => none
        | some (w1, n) => BObject.Bencode.elems rest w1.toBufio (wLen + n) := by
  rfl

theorem Bencode_pairs_cons (k : List Byte) (v : BObject) (rest : Entries) (bw : Writer)
    (wLen : Nat) :
    BObject.Bencode.pairs ((k, v) :: rest) bw wLen
      = match BObject.Bencode v (.bufio (EncodeString (.bufio bw) k).1.toBufio) with
        | none => none
        | some (w1, n) =>
          BObject.Bencode.pairs rest w1.toBufio (wLen + (EncodeString (.bufio bw) k).2 + n) := by
  rfl


theorem Bencode_str_healthy (s : List Byte) (w : GoWriter) (h : w.healthy = true) :
    ∃ w1, (BObject.obj BSTR (.str s)).Bencode w = some (w1, (stringWire s).length) ∧
      w1.healthy = true ∧ w1.written = w.written ++ stringWire s ∧ w1.pending = [] := by
  have h0 : w.toBufio.ok = true := by rw [GoWriter.toBufio_ok]; exact h
  obtain ⟨bw1, a0, a1, a2, _⟩ := EncodeString_bufio w.toBufio s h0
  obtain ⟨d1, d2, d3, _⟩ := Writer.Flush_ok_spec _ a1
  obtain ⟨e1, e2, e3⟩ := GoWriter.after_spec w _ d1 d3
  refine ⟨w.after bw1.Flush.1, ?_, e1, ?_, e3⟩
  · rw [Bencode_str_eq, a0]
    rfl
  · rw [e2, d2, a2, GoWriter.toBufio_written]

theorem Bencode_int_healthy (n : Int) (w : GoWriter) (h : w.healthy = true) :
    ∃ w1, (BObject.obj BINT (.int n)).Bencode w = some (w1, (Itoa n).length + 2) ∧
      w1.healthy = true ∧ w1.written = w.written ++ (ch 'i' :: Itoa n ++ [ch 'e']) ∧
      w1.pending = [] := by
  have h0 : w.toBufio.ok = true := by rw [GoWriter.toBufio_ok]; exact h
  obtain ⟨bw1, a0, a1, a2⟩ := EncodeInt_bufio w.toBufio n h0
  obtain ⟨d1, d2, d3, _⟩ := Writer.Flush_ok_spec _ a1
  obtain ⟨e1, e2, e3⟩ := GoWriter.after_spec w _ d1 d3
  refine ⟨w.after bw1.Flush.1, ?_, e1, ?_, e3⟩
  · rw [Bencode_int_eq, a0]
    rfl
  · rw [e2, d2, a2, GoWriter.toBufio_written]

theorem Bencode_list_healthy (l : Objects) (w : GoWriter) (h : w.healthy = true)
    (ih : ∀ (bw : Writer), bw.ok = true → ∀ wLen : Nat,
      ∃ bw1, BObject.Bencode.elems l bw wLen = some (bw1, wLen + (BObject.wire.elems l).length) ∧
        bw1.ok = true ∧ bw1.written = bw.written ++ BObject.wire.elems l) :
    ∃ w1, (BObject.obj BLIST (.list l)).Bencode w
        = some (w1, (BObject.wire.elems l).length + 2) ∧
      w1.healthy = true ∧
      w1.written = w.written ++ (ch 'l' :: BObject.wire.elems l ++ [ch 'e']) ∧
      w1.pending = [] := by
  have h0 : w.toBufio.ok = true := by rw [GoWriter.toBufio_ok]; exact h
  obtain ⟨a1, a2⟩ := Writer.WriteByte_ok w.toBufio (ch 'l') h0
  obtain ⟨bw1, b0, b1, b2⟩ := ih _ a1 0
  obtain ⟨c1, c2⟩ := Writer.WriteByte_ok bw1 (ch 'e') b1
  obtain ⟨d1, d2, d3, _⟩ := Writer.Flush_ok_spec _ c1
  obtain ⟨e1, e2, e3⟩ := GoWriter.after_spec w _ d1 d3
  refine ⟨w.after (bw1.WriteByte (ch 'e')).1.Flush.1, ?_, e1, ?_, e3⟩
  · rw [Bencode_list_eq, b0]
    simp only [Nat.zero_add]
  · rw [e2, d2, c2, b2, a2, GoWriter.toBufio_written]
    simp

theorem Bencode_dict_healthy (d : Entries) (w : GoWriter) (h : w.healthy = true)
    (ih : ∀ (bw : Writer), bw.ok = true → ∀ wLen : Nat,
      ∃ bw1, BObject.Bencode.pairs d bw wLen = some (bw1, wLen + (BObject.wire.pairs d).length) ∧
        bw1.ok = true ∧ bw1.written = bw.written ++ BObject.wire.pairs d) :
    ∃ w1, (BObject.obj BDICT (.dict d)).Bencode w
        = some (w1, (BObject.wire.pairs d).length + 2) ∧
      w1.healthy = true ∧
      w1.written = w.written ++ (ch 'd' :: BObject.wire.pairs d ++ [ch 'e']) ∧
      w1.pending = [] := by
  have h0 : w.toBufio.ok = true := by rw [GoWriter.toBufio_ok]; exact h
  obtain ⟨a1, a2⟩ := Writer.WriteByte_ok w.toBufio (ch 'd') h0
  obtain ⟨bw1, b0, b1, b2⟩ := ih _ a1 0
  obtain ⟨c1, c2⟩ := Writer.WriteByte_ok bw1 (ch 'e') b1
  obtain ⟨d1, d2, d3, _⟩ := Writer.Flush_ok_spec _ c1
  obtain ⟨e1, e2, e3⟩ := GoWriter.after_spec w _ d1 d3
  refine ⟨w.after (bw1.WriteByte (ch 'e')).1.Flush.1, ?_, e1, ?_, e3⟩
  · rw [Bencode_dict_eq, b0]
    simp only [Nat.zero_add]
  · rw [e2, d2, c2, b2, a2, GoWriter.toBufio_written]
    simp

theorem Bencode_elems_step (e : BObject) (rest : Objects)
    (ihe : ∀ w : GoWriter, w.healthy = true →
      ∃ w1, e.Bencode w = some (w1, e.wire.length) ∧ w1.healthy = true ∧
        w1.written = w.written ++ e.wire ∧ w1.pending = [])
    (ihr : ∀ (bw : Writer), bw.ok = true → ∀ wLen : Nat,
      ∃ bw1, BObject.Bencode.elems rest bw wLen
          = some (bw1, wLen + (BObject.wire.elems rest).length) ∧
        bw1.ok = true ∧ bw1.written = bw.written ++ BObject.wire.elems rest)
    (bw : Writer) (h : bw.ok = true) (wLen : Nat) :
    ∃ bw1, BObject.Bencode.elems (e :: rest) bw wLen
        = some (bw1, wLen + (BObject.wire.elems (e :: rest)).length) ∧
      bw1.ok = true ∧ bw1.written = bw.written ++ BObject.wire.elems (e :: rest) := by
  obtain ⟨w1, a0, a1, a2, _⟩ := ihe (.bufio bw) h
  rw [← GoWriter.toBufio_ok] at a1
  obtain ⟨bw2, b0, b1, b2⟩ := ihr w1.toBufio a1 (wLen + e.wire.length)
  have hw : BObject.wire.elems (e :: rest) = e.wire ++ BObject.wire.elems rest := rfl
  refine ⟨bw2, ?_, b1, ?_⟩
  · rw [Bencode_elems_cons, a0]
    simp only []
    rw [b0, hw]
    simp only [List.length_append, Nat.add_assoc]
  · rw [b2, GoWriter.toBufio_written, a2, GoWriter.bufio_written, hw, List.append_assoc]

theorem Bencode_pairs_step (k : List Byte) (v : BObject) (rest : Entries)
    (ihv : ∀ w : GoWriter, w.healthy = true →
      ∃ w1, v.Bencode w = some (w1, v.wire.length) ∧ w1.healthy = true ∧
        w1.written = w.written ++ v.wire ∧ w1.pending = [])
    (ihr : ∀ (bw : Writer), bw.ok = true → ∀ wLen : Nat,
      ∃ bw1, BObject.Bencode.pairs rest bw wLen
          = some (bw1, wLen + (BObject.wire.pairs rest).length) ∧
        bw1.ok = true ∧ bw1.written = bw.written ++ BObject.wire.pairs rest)
    (bw : Writer) (h : bw.ok = true) (wLen : Nat) :
    ∃ bw1, BObject.Bencode.pairs ((k, v) :: rest) bw wLen
        = some (bw1, wLen + (BObject.wire.pairs ((k, v) :: rest)).length) ∧
      bw1.ok = true ∧ bw1.written = bw.written ++ BObject.wire.pairs ((k, v) :: rest) := by
  obtain ⟨bk, k0, k1, k2, _⟩ := EncodeString_bufio bw k h
  obtain ⟨w1, a0, a1, a2, _⟩ := ihv (.bufio bk) k1
  rw [← GoWriter.toBufio_ok] at a1
  obtain ⟨bw2, b0, b1, b2⟩ := ihr w1.toBufio a1 (wLen + (stringWire k).length + v.wire.length)
  have hw : BObject.wire.pairs ((k, v) :: rest)
      = stringWire k ++ v.wire ++ BObject.wire.pairs rest := rfl
  refine ⟨bw2, ?_, b1, ?_⟩
  · rw [Bencode_pairs_cons, k0]
    simp only [GoWriter.bufio_toBufio, a0]
    rw [b0, hw]
    simp only [List.length_append, Nat.add_assoc]
  · rw [b2, GoWriter.toBufio_written, a2, GoWriter.bufio_written, k2, hw]
    simp only [List.append_assoc]

mutual
theorem Bencode_healthy : ∀ (o : BObject), o.wellFormed = true →
    ∀ w : GoWriter, w.healthy = true →
      ∃ w1, o.Bencode w = some (w1, o.wire.length) ∧ w1.healthy = true ∧
        w1.written = w.written ++ o.wire ∧ w1.pending = []
  | .null, hwf, _, _ => by simp [BObject.wellFormed] at hwf
  | .obj _ .other, hwf, _, _ => by simp [BObject.wellFormed] at hwf
  | .obj type_ (.str s), hwf, w, h => by
    have ht : type_ = BSTR := by simpa [BObject.wellFormed] using hwf
    subst ht
    exact Bencode_str_healthy s w h
  | .obj type_ (.int n), hwf, w, h => by
    have ht : type_ = BINT := by simpa [BObject.wellFormed] using hwf
    subst ht
    have hl : (BObject.obj BINT (.int n)).wire.length = (Itoa n).length + 2 := by
      simp [BObject.wire]
    rw [hl]
    exact Bencode_int_healthy n w h
  | .obj type_ (.list l), hwf, w, h => by
    have hwf2 : type_ = BLIST ∧ BObject.wellFormed.elems l = true := by
      simpa [BObject.wellFormed] using hwf
    obtain ⟨ht, hl⟩ := hwf2
    subst ht
    have hlen : (BObject.obj BLIST (.list l)).wire.length
        = (BObject.wire.elems l).length + 2 := by
      simp [BObject.wire]
    rw [hlen]
    exact Bencode_list_healthy l w h (Bencode_elems_healthy l hl)
  | .obj type_ (.dict d), hwf, w, h => by
    have hwf2 : type_ = BDICT ∧ BObject.wellFormed.pairs d = true := by
      simpa [BObject.wellFormed] using hwf
    obtain ⟨ht, hl⟩ := hwf2
    subst ht
    have hlen : (BObject.obj BDICT (.dict d)).wire.length
        = (BObject.wire.pairs d).length + 2 := by
      simp [BObject.wire]
    rw [hlen]
    exact Bencode_dict_healthy d w h (Bencode_pairs_healthy d hl)
theorem Bencode_elems_healthy : ∀ (l : Objects), BObject.wellFormed.elems l = true →
    ∀ (bw : Writer), bw.ok = true → ∀ wLen : Nat,
      ∃ bw1, BObject.Bencode.elems l bw wLen = some (bw1, wLen + (BObject.wire.elems l).length) ∧
        bw1.ok = true ∧ bw1.written = bw.written ++ BObject.wire.elems l
  | [], _, bw, h, wLen => by
    exact ⟨bw, by simp [BObject.Bencode.elems, BObject.wire.elems], h,
      by simp [BObject.wire.elems]⟩
  | e :: rest, hwf, bw, h, wLen => by
    have hwf2 : e.wellFormed = true ∧ BObject.wellFormed.elems rest = true := by
      simpa [BObject.wellFormed.elems] using hwf
    exact Bencode_elems_step e rest (Bencode_healthy e hwf2.1)
      (Bencode_elems_healthy rest hwf2.2) bw h wLen
theorem Bencode_pairs_healthy : ∀ (d : Entries), BObject.wellFormed.pairs d = true →
    ∀ (bw : Writer), bw.ok = true → ∀ wLen : Nat,
      ∃ bw1, BObject.Bencode.pairs d bw wLen = some (bw1, wLen + (BObject.wire.pairs d).length) ∧
        bw1.ok = true ∧ bw1.written = bw.written ++ BObject.wire.pairs d
  | [], _, bw, h, wLen => by
    exact ⟨bw, by simp [BObject.Bencode.pairs, BObject.wire.pairs], h,
      by simp [BObject.wire.pairs]⟩
  | (k, v) :: rest, hwf, bw, h, wLen => by
    have hwf2 : v.wellFormed = true ∧ BObject.wellFormed.pairs rest = true := by
      simpa [BObject.wellFormed.pairs] using hwf
    exact Bencode_pairs_step k v rest (Bencode_healthy v hwf2.1)
      (Bencode_pairs_healthy rest hwf2.2) bw h wLen
end

/-! ## Lemmas: string decoding -/

theorem DecodeString_scan_digits (ds : List Byte) (hd : ∀ b ∈ ds, isDigit b = true)
    (rest : List Byte) :
    ∀ acc, DecodeString.scan acc (ds ++ ch ':' :: rest) = (none, acc ++ ds, ⟨rest⟩) := by
  induction ds with
  | nil =>
    intro acc
    have h1 : isDigit (ch ':') = false := by decide
    simp [DecodeString.scan, h1]
  | cons b t ih =>
    intro acc
    have hb : isDigit b = true := hd b (by simp)
    have ht : ∀ x ∈ t, isDigit x = true := fun x hx => hd x (by simp [hx])
    simp [DecodeString.scan, hb, ih ht]

theorem maxAlloc_lt : maxAlloc < 2 ^ 63 := by decide

theorem makeBytes_ofNat (n : Nat) (h : n ≤ maxAlloc) :
    makeBytes (n : Int) = some (List.replicate n 0) := by
  simp [makeBytes, h]

theorem ReadAtLeast_exact (s rest : List Byte) :
    ReadAtLeast ⟨s ++ rest⟩ (List.replicate s.length 0) = (s, none, ⟨rest⟩) := by
  simp [ReadAtLeast]

theorem DecodeString_stringWire (s rest : List Byte) (hlen : s.length ≤ maxAlloc) :
    DecodeString ⟨stringWire s ++ rest⟩ = some ⟨s, none, ⟨rest⟩⟩ := by
  have hscan := DecodeString_scan_digits (formatNat s.length) (formatNat_digits s.length)
    (s ++ rest) []
  have hatoi := Atoi_formatNat s.length (Nat.lt_of_le_of_lt hlen maxAlloc_lt)
  have hread := ReadAtLeast_exact s rest
  unfold DecodeString
  simp only [stringWire, Itoa_ofNat, List.append_assoc, List.cons_append]
  rw [hscan]
  simp only [List.nil_append]
  rw [hatoi]
  simp only
  rw [makeBytes_ofNat s.length hlen]
  simp only
  rw [hread]

/-! ## The string codec -/

/-- C1. String round trip: for every string `s` (any bytes, the empty string
included; a Go string, being one allocation, has at most `maxAlloc` bytes),
`DecodeString` run on exactly the bytes that `EncodeString` writes for `s` to
a stream whose writes all succeed returns `s` with a nil error, and reads all
of them. -/
theorem DecodeString_EncodeString (s : List Byte) (hlen : s.length ≤ maxAlloc)
    (w : GoWriter) (hw : w.healthy = true) (hempty : w.written = []) :
    DecodeString ⟨(EncodeString w s).1.written⟩ = some ⟨s, none, ⟨[]⟩⟩ := by
  obtain ⟨_, h2, _, _⟩ := EncodeString_healthy w s hw
  rw [h2, hempty, List.nil_append]
  have h := DecodeString_stringWire s [] hlen
  rwa [List.append_nil] at h

/-- C1, at `"spam"` on a fresh stream: the bytes are `4:spam` and decode to
`spam`. -/
theorem DecodeString_EncodeString_witness :
    (bytes "spam").length ≤ maxAlloc ∧ (GoWriter.raw Sink.fresh).healthy = true ∧
      (GoWriter.raw Sink.fresh).written = [] ∧
      DecodeString ⟨(EncodeString (.raw Sink.fresh) (bytes "spam")).1.written⟩
        = some ⟨bytes "spam", none, ⟨[]⟩⟩ :=
  ⟨by decide, rfl, rfl,
    DecodeString_EncodeString (bytes "spam") (by decide) (.raw Sink.fresh) rfl rfl⟩

/-- C7. For every string `s` and every output stream whose writes succeed,
`EncodeString` writes exactly `decimal(len(s)) ++ ':' ++ s` (the decimal
text denotes the exact byte count of `s`), forwards all of it to the
underlying writer, and returns the number of bytes written,
`len(decimal(len(s))) + 1 + len(s)`. -/
theorem EncodeString_writes (s : List Byte) (w : GoWriter) (hw : w.healthy = true) :
    (EncodeString w s).1.written = w.written ++ (Itoa s.length ++ ch ':' :: s) ∧
      (EncodeString w s).1.pending = [] ∧
      digitsValue 0 (Itoa s.length) = some s.length ∧
      (EncodeString w s).2 = (Itoa s.length).length + 1 + s.length ∧
      (EncodeString w s).1.written.length = w.written.length + (EncodeString w s).2 := by
  obtain ⟨_, h2, h3, h4⟩ := EncodeString_healthy w s hw
  refine ⟨h2, h3, ?_, h4, ?_⟩
  · rw [Itoa_ofNat]
    exact digitsValue_formatNat s.length
  · rw [h2, h4, List.length_append, stringWire_length]

/-- C7, at `"spam"` on a fresh stream. -/
theorem EncodeString_writes_witness :
    (GoWriter.raw Sink.fresh).healthy = true ∧
      (EncodeString (.raw Sink.fresh) (bytes "spam")).1.written
        = (GoWriter.raw Sink.fresh).written
          ++ (Itoa (bytes "spam").length ++ ch ':' :: bytes "spam") ∧
      (EncodeString (.raw Sink.fresh) (bytes "spam")).2
        = (Itoa (bytes "spam").length).length + 1 + (bytes "spam").length :=
  ⟨rfl, (EncodeString_writes (bytes "spam") (.raw Sink.fresh) rfl).1,
    (EncodeString_writes (bytes "spam") (.raw Sink.fresh) rfl).2.2.2.1⟩

/-- C10, as the code behaves: on the input `x`, whose first byte is not a
digit, `DecodeString` fails with `ErrCol`, not with `ErrNum`. -/
theorem DecodeString_nondigit_not_ErrNum :
    DecodeString ⟨bytes "x"⟩ = some ⟨[], some Error.ErrCol, ⟨[]⟩⟩ ∧
      (DecodeString ⟨bytes "x"⟩).map Decoded.err ≠ some (some Error.ErrNum) := by
  decide

/-- C10, amended. For every non-empty input whose first byte `b` is not an
ASCII digit, `DecodeString` fails and returns the empty string: with `ErrCol`
when `b` is not a colon, and with the syntax error of `strconv.Atoi` on the
empty digit run when `b` is a colon; in neither case with `ErrNum`. -/
theorem DecodeString_nondigit (b : Byte) (rest : List Byte) (hb : isDigit b = false) :
    DecodeString ⟨b :: rest⟩
        = some ⟨[], some (if b = ch ':' then Error.NumError [] .syntaxErr else Error.ErrCol),
            ⟨rest⟩⟩ ∧
      (DecodeString ⟨b :: rest⟩).map Decoded.err ≠ some (some Error.ErrNum) := by
  by_cases hc : b = ch ':'
  · subst hc
    constructor
    · simp [DecodeString, DecodeString.scan, hb, Atoi]
    · simp [DecodeString, DecodeString.scan, hb, Atoi]
  · constructor
    · simp [DecodeString, DecodeString.scan, hb, hc]
    · simp [DecodeString, DecodeString.scan, hb, hc]

/-- C10 amended, at the inputs `x` and `:ab`. -/
theorem DecodeString_nondigit_witness :
    isDigit (ch 'x') = false ∧
      DecodeString ⟨ch 'x' :: []⟩
        = some ⟨[],
            some (if ch 'x' = ch ':' then Error.NumError [] .syntaxErr else Error.ErrCol),
            ⟨[]⟩⟩ ∧
      (DecodeString ⟨ch ':' :: bytes "ab"⟩).map Decoded.err ≠ some (some Error.ErrNum) :=
  ⟨by decide, (DecodeString_nondigit (ch 'x') [] (by decide)).1,
    (DecodeString_nondigit (ch ':') (bytes "ab") (by decide)).2⟩

/-! ## The integer codec -/

/-- C2, at the failing inputs: `EncodeInt` produces `i42e` for 42, and
`DecodeInt` rejects `i42e`, `i-7e` and `i-42e` with `ErrCol` at the byte
after `i`, returning 0. -/
theorem DecodeInt_rejects_EncodeInt :
    (EncodeInt (.bufio (NewWriter Sink.fresh)) 42).1.written = bytes "i42e" ∧
      DecodeInt ⟨bytes "i42e"⟩ = ⟨0, some Error.ErrCol, ⟨bytes "2e"⟩⟩ ∧
      DecodeInt ⟨bytes "i-7e"⟩ = ⟨0, some Error.ErrCol, ⟨bytes "7e"⟩⟩ ∧
      DecodeInt ⟨bytes "i-42e"⟩ = ⟨0, some Error.ErrCol, ⟨bytes "42e"⟩⟩ := by
  decide

/-- C8, at the failing input: called with a writer that is not a
`*bufio.Writer`, `EncodeInt` returns 4 for the value 42 while the writer has
received no byte at all. -/
theorem EncodeInt_raw_unflushed (k : Sink) :
    EncodeInt (.raw k) 42 = (.raw k, 4) ∧
      (EncodeInt (.raw k) 42).1.written = (GoWriter.raw k).written := by
  constructor <;> rfl

/-! ## Accessors -/

/-- C6. For every `BObject` whose payload matches its tag, the accessor of
that tag returns the payload with a nil error, and each of the other three
returns its zero value together with `ErrTyp`; so `Int()` on a string object
fails with `ErrTyp`. -/
theorem accessors_match_tag :
    (∀ s : List Byte,
      (BObject.obj BSTR (.str s)).Str = some (s, none) ∧
      (BObject.obj BSTR (.str s)).Int = some (0, some Error.ErrTyp) ∧
      (BObject.obj BSTR (.str s)).List = some ([], some Error.ErrTyp) ∧
      (BObject.obj BSTR (.str s)).Dict = some ([], some Error.ErrTyp)) ∧
    (∀ n : Int,
      (BObject.obj BINT (.int n)).Int = some (n, none) ∧
      (BObject.obj BINT (.int n)).Str = some ([], some Error.ErrTyp) ∧
      (BObject.obj BINT (.int n)).List = some ([], some Error.ErrTyp) ∧
      (BObject.obj BINT (.int n)).Dict = some ([], some Error.ErrTyp)) ∧
    (∀ l : Objects,
      (BObject.obj BLIST (.list l)).List = some (l, none) ∧
      (BObject.obj BLIST (.list l)).Str = some ([], some Error.ErrTyp) ∧
      (BObject.obj BLIST (.list l)).Int = some (0, some Error.ErrTyp) ∧
      (BObject.obj BLIST (.list l)).Dict = some ([], some Error.ErrTyp)) ∧
    (∀ d : Entries,
      (BObject.obj BDICT (.dict d)).Dict = some (d, none) ∧
      (BObject.obj BDICT (.dict d)).Str = some ([], some Error.ErrTyp) ∧
      (BObject.obj BDICT (.dict d)).Int = some (0, some Error.ErrTyp) ∧
      (BObject.obj BDICT (.dict d)).List = some ([], some Error.ErrTyp)) := by
  refine ⟨fun s => ⟨rfl, rfl, rfl, rfl⟩, fun n => ⟨rfl, rfl, rfl, rfl⟩,
    fun l => ⟨rfl, rfl, rfl, rfl⟩, fun d => ⟨rfl, rfl, rfl, rfl⟩⟩

/-! ## The tree encoder -/

theorem wellFormed_elems_iff (l : Objects) :
    BObject.wellFormed.elems l = true ↔ ∀ e ∈ l, e.wellFormed = true := by
  induction l with
  | nil => simp [BObject.wellFormed.elems]
  | cons e rest ih => simp [BObject.wellFormed.elems, ih]

theorem wire_elems_eq (l : Objects) :
    BObject.wire.elems l = (l.map BObject.wire).flatten := by
  induction l with
  | nil => simp [BObject.wire.elems]
  | cons e rest ih => simp [BObject.wire.elems, ih]

theorem wire_pairs_eq (d : Entries) :
    BObject.wire.pairs d = d.flatMap (fun kv => stringWire kv.1 ++ kv.2.wire) := by
  induction d with
  | nil => simp [BObject.wire.pairs]
  | cons e rest ih =>
    obtain ⟨k, v⟩ := e
    simp [BObject.wire.pairs, ih]

theorem emits_wire (o : BObject) (h : o.wellFormed = true) : o.emits o.wire := by
  intro w hw
  obtain ⟨w1, h1, _, h3, h4⟩ := Bencode_healthy o h w hw
  exact ⟨w1, _, h1, h3, h4⟩

/-- C4. For every list `BObject` with well-formed elements `e1..en`
(`n ≥ 0`), the bytes `Bencode` delivers to an output stream whose writes
succeed are exactly `l`, then the bytes it delivers for `e1`, `e2`, ..., `en`
in list order, then `e`; the empty list encodes as `le`. -/
theorem Bencode_list (es : Objects) (hes : ∀ e ∈ es, e.wellFormed = true) :
    (∃ encs : List (List Byte), List.Forall₂ BObject.emits es encs ∧
      (BObject.obj BLIST (.list es)).emits (ch 'l' :: encs.flatten ++ [ch 'e'])) ∧
    (BObject.obj BLIST (.list [])).emits (bytes "le") := by
  constructor
  · refine ⟨es.map BObject.wire, ?_, ?_⟩
    · rw [List.forall₂_map_right_iff]
      exact List.forall₂_same.mpr (fun e he => emits_wire e (hes e he))
    · have hwf : (BObject.obj BLIST (.list es)).wellFormed = true := by
        simp [BObject.wellFormed, (wellFormed_elems_iff es).mpr hes]
      have h := emits_wire _ hwf
      rw [← wire_elems_eq]
      exact h
  · exact emits_wire (BObject.obj BLIST (.list [])) rfl

/-- C4, at the list of the string `spam` and the integer -3. -/
theorem Bencode_list_witness :
    (∀ e ∈ [BObject.obj BSTR (.str (bytes "spam")), BObject.obj BINT (.int (-3))],
        e.wellFormed = true) ∧
    ((∃ encs : List (List Byte),
        List.Forall₂ BObject.emits
          [BObject.obj BSTR (.str (bytes "spam")), BObject.obj BINT (.int (-3))] encs ∧
        (BObject.obj BLIST (.list
          [BObject.obj BSTR (.str (bytes "spam")), BObject.obj BINT (.int (-3))])).emits
            (ch 'l' :: encs.flatten ++ [ch 'e'])) ∧
      (BObject.obj BLIST (.list [])).emits (bytes "le")) :=
  ⟨by decide,
    Bencode_list [BObject.obj BSTR (.str (bytes "spam")), BObject.obj BINT (.int (-3))]
      (by decide)⟩

/-- C5. For every well-formed `BObject` tree (strings, integers, lists and
dictionaries, nested to any depth) and every output stream whose writes all
succeed, `Bencode` returns, and the int it returns equals the number of
bytes the call wrote to the stream, all of which have been forwarded. -/
theorem Bencode_count (o : BObject) (ho : o.wellFormed = true) (w : GoWriter)
    (hw : w.healthy = true) :
    ∃ w1 n out, o.Bencode w = some (w1, n) ∧ w1.written = w.written ++ out ∧
      w1.pending = [] ∧ n = out.length := by
  obtain ⟨w1, h1, _, h3, h4⟩ := Bencode_healthy o ho w hw
  exact ⟨w1, _, o.wire, h1, h3, h4, rfl⟩

/-- C5, at a dictionary holding a list, on a fresh stream. -/
theorem Bencode_count_witness :
    (BObject.obj BDICT (.dict [(bytes "a", BObject.obj BLIST
        (.list [BObject.obj BSTR (.str (bytes "xy")), BObject.obj BINT (.int 7)]))])).wellFormed
      = true ∧ (GoWriter.raw Sink.fresh).healthy = true ∧
    ∃ w1 n out, (BObject.obj BDICT (.dict [(bytes "a", BObject.obj BLIST
        (.list [BObject.obj BSTR (.str (bytes "xy")), BObject.obj BINT (.int 7)]))])).Bencode
          (.raw Sink.fresh) = some (w1, n) ∧
      w1.written = (GoWriter.raw Sink.fresh).written ++ out ∧ w1.pending = [] ∧
      n = out.length :=
  ⟨by decide, rfl, Bencode_count _ (by decide) (.raw Sink.fresh) rfl⟩

theorem sortByKey_ascending (d : Entries) (h : keysAscending d = true) : sortByKey d = d := by
  induction d with
  | nil => rfl
  | cons e rest ih =>
    cases rest with
    | nil => rfl
    | cons x rest2 =>
      obtain ⟨k1, v1⟩ := e
      obtain ⟨k2, v2⟩ := x
      have h2 : strLess k1 k2 = true ∧ keysAscending ((k2, v2) :: rest2) = true := by
        simpa [keysAscending] using h
      have hirr : ∀ a b : List Byte, strLess a b = true → strLess b a = false := by
        intro a
        induction a with
        | nil =>
          intro b hb
          cases b <;> simp_all [strLess]
        | cons x xs ihx =>
          intro b hb
          cases b with
          | nil => simp [strLess] at hb
          | cons y ys =>
            simp only [strLess, Bool.or_eq_true, Bool.and_eq_true, decide_eq_true_eq] at hb
            simp only [strLess, Bool.or_eq_false_iff, Bool.and_eq_false_iff,
              decide_eq_false_iff_not]
            rcases hb with hlt | ⟨heq, hrec⟩
            · refine ⟨?_, Or.inl ?_⟩
              · exact fun hyx => absurd (UInt8.lt_trans hlt hyx) (UInt8.lt_irrefl _)
              · intro hyx
                subst hyx
                exact UInt8.lt_irrefl _ hlt
            · subst heq
              exact ⟨UInt8.lt_irrefl _, Or.inr (ihx ys hrec)⟩
      rw [sortByKey, ih h2.2]
      simp [insertByKey, hirr k1 k2 h2.1]

/-- C3, as the code behaves: when `range` yields the entry of key `b` before
the entry of key `a`, `Bencode` writes `d1:bi1e1:ai2ee`, key `b` first, and
not the encoding with ascending keys. -/
theorem Bencode_dict_unsorted :
    ((BObject.obj BDICT (.dict [(bytes "b", BObject.obj BINT (.int 1)),
        (bytes "a", BObject.obj BINT (.int 2))])).Bencode (.raw Sink.fresh)).map
          (fun r => r.1.written) = some (bytes "d1:bi1e1:ai2ee") ∧
    specDictWire [(bytes "b", BObject.obj BINT (.int 1)), (bytes "a", BObject.obj BINT (.int 2))]
      = bytes "d1:ai2e1:bi1ee" ∧
    ¬ (BObject.obj BDICT (.dict [(bytes "b", BObject.obj BINT (.int 1)),
        (bytes "a", BObject.obj BINT (.int 2))])).emits
          (specDictWire [(bytes "b", BObject.obj BINT (.int 1)),
            (bytes "a", BObject.obj BINT (.int 2))]) := by
  refine ⟨by decide, by decide, ?_⟩
  intro h
  obtain ⟨w1, n, h1, h2, _⟩ := h (.raw Sink.fresh) rfl
  have hrun : (BObject.obj BDICT (.dict [(bytes "b", BObject.obj BINT (.int 1)),
      (bytes "a", BObject.obj BINT (.int 2))])).Bencode (.raw Sink.fresh)
      = some (.raw ⟨bytes "d1:bi1e1:ai2ee", none, false⟩, 14) := by decide
  rw [hrun] at h1
  injection h1 with h1
  injection h1 with h1 _
  subst h1
  revert h2
  decide

/-- C3, amended. For every dictionary `BObject` with well-formed values,
`Bencode` emits between `d` and `e` the key/value pairs in the order in which
the underlying map yields its entries, each key as a string followed by the
bytes of its value; when that order has the keys strictly ascending, the
output is the dictionary encoding of the specification. -/
theorem Bencode_dict_order (d : Entries) (hd : BObject.wellFormed.pairs d = true) :
    (BObject.obj BDICT (.dict d)).emits
        (ch 'd' :: d.flatMap (fun kv => stringWire kv.1 ++ kv.2.wire) ++ [ch 'e']) ∧
      (keysAscending d = true → (BObject.obj BDICT (.dict d)).emits (specDictWire d)) := by
  have hwf : (BObject.obj BDICT (.dict d)).wellFormed = true := by
    simp [BObject.wellFormed, hd]
  have h := emits_wire _ hwf
  have hw : (BObject.obj BDICT (.dict d)).wire
      = ch 'd' :: d.flatMap (fun kv => stringWire kv.1 ++ kv.2.wire) ++ [ch 'e'] := by
    rw [← wire_pairs_eq]
    rfl
  rw [hw] at h
  refine ⟨h, fun hasc => ?_⟩
  rw [specDictWire, sortByKey_ascending d hasc]
  exact h

/-- C3 amended, at the two iteration orders of the map with keys `a` and
`b`. -/
theorem Bencode_dict_order_witness :
    BObject.wellFormed.pairs [(bytes "b", BObject.obj BINT (.int 1)),
        (bytes "a", BObject.obj BINT (.int 2))] = true ∧
      (BObject.obj BDICT (.dict [(bytes "b", BObject.obj BINT (.int 1)),
        (bytes "a", BObject.obj BINT (.int 2))])).emits
          (ch 'd' :: [(bytes "b", BObject.obj BINT (.int 1)),
            (bytes "a", BObject.obj BINT (.int 2))].flatMap
              (fun kv => stringWire kv.1 ++ kv.2.wire) ++ [ch 'e']) ∧
      keysAscending [(bytes "a", BObject.obj BINT (.int 2)),
        (bytes "b", BObject.obj BINT (.int 1))] = true ∧
      (BObject.obj BDICT (.dict [(bytes "a", BObject.obj BINT (.int 2)),
        (bytes "b", BObject.obj BINT (.int 1))])).emits
          (specDictWire [(bytes "a", BObject.obj BINT (.int 2)),
            (bytes "b", BObject.obj BINT (.int 1))]) :=
  ⟨by decide,
    (Bencode_dict_order [(bytes "b", BObject.obj BINT (.int 1)),
      (bytes "a", BObject.obj BINT (.int 2))] (by decide)).1,
    by decide,
    (Bencode_dict_order [(bytes "a", BObject.obj BINT (.int 2)),
      (bytes "b", BObject.obj BINT (.int 1))] (by decide)).2 (by decide)⟩

theorem digitByte_ne_zero (d : Nat) (h1 : 1 ≤ d) (h2 : d < 10) : digitByte d ≠ ch '0' := by
  interval_cases d <;> decide

theorem formatNat_head (u : Nat) (hu : u ≠ 0) :
    ∃ d t, formatNat u = digitByte d :: t ∧ 1 ≤ d ∧ d < 10 := by
  induction u using Nat.strong_induction_on with
  | _ u ih =>
    by_cases h : u < 10
    · exact ⟨u, [], formatNat_small u h, by omega, h⟩
    · obtain ⟨d, t, ht, hd⟩ := ih (u / 10) (by omega) (by omega)
      exact ⟨d, t ++ [digitByte (u % 10)], by rw [formatNat_step u h, ht]; rfl, hd⟩

theorem formatNat_leading_zero (u : Nat) (h : (formatNat u).head? = some (ch '0')) :
    u = 0 := by
  by_contra hu
  obtain ⟨d, t, ht, h1, h2⟩ := formatNat_head u hu
  rw [ht] at h
  simp only [List.head?_cons, Option.some.injEq] at h
  exact digitByte_ne_zero d h1 h2 h

theorem Itoa_canonical (n : Int) : canonicalDecimal n (Itoa n) := by
  refine ⟨formatNat n.natAbs, ?_, formatNat_ne_nil _, formatNat_digits _,
    digitsValue_formatNat _, ?_, ?_⟩
  · by_cases hn : n < 0
    · simp [Itoa, hn]
    · have h0 : 0 ≤ n := by omega
      obtain ⟨m, rfl⟩ := Int.eq_ofNat_of_zero_le h0
      simp [Itoa, hn]
  · intro h
    rw [formatNat_leading_zero _ h]
    rfl
  · intro hn hz
    have h0 : n.natAbs = 0 := formatNat_leading_zero _ (by rw [hz]; rfl)
    omega

/-- C9. For every integer `BObject` with value `n`, the bytes `Bencode`
emits are `i`, the decimal text `d` of `n`, then `e`, and `d` is canonical: a
leading `-` exactly when `n < 0`, followed by one or more ASCII digits that
denote the absolute value, with no leading zero unless the digit run is the
single digit `0`; never `-0` and never an empty digit run. -/
theorem Bencode_int_canonical (n : Int) :
    (BObject.obj BINT (.int n)).emits (ch 'i' :: Itoa n ++ [ch 'e']) ∧
      canonicalDecimal n (Itoa n) :=
  ⟨emits_wire (BObject.obj BINT (.int n)) rfl, Itoa_canonical n⟩

/-! ## Lemmas: the fuel of `WriteString` suffices -/

theorem Sink.Write_cases (w : Sink) (p : List Byte) :
    ((w.Write p).2.2 = none ∧ (w.Write p).2.1 = p.length) ∨ (w.Write p).2.2 ≠ none := by
  unfold Sink.Write
  cases w.room with
  | none => simp
  | some k =>
    by_cases h : p.length ≤ k
    · simp [h]
    · simp [h]

theorem Writer.Flush_cases (b : Writer) :
    b.Flush.1.size = b.size ∧ b.Flush.1.buf.length ≤ b.buf.length ∧
      (b.Flush.1.err ≠ none ∨ b.Flush.1.buf = []) := by
  unfold Writer.Flush
  cases herr : b.err with
  | some e => simp [herr]
  | none =>
    by_cases hb : b.buf.length = 0
    · have : b.buf = [] := List.length_eq_zero.mp hb
      simp [this]
    · simp only [hb, if_false]
      rcases Sink.Write_cases b.wr b.buf with ⟨h1, h2⟩ | h1
      · generalize b.wr.Write b.buf = r at *
        obtain ⟨wr, n, err⟩ := r
        simp only at h1 h2
        subst h1 h2
        simp
      · generalize b.wr.Write b.buf = r at *
        obtain ⟨wr, n, err⟩ := r
        simp only at h1
        cases err with
        | none => exact absurd rfl h1
        | some e => simp

theorem Writer.WriteString_loop_exits (fuel : Nat) :
    ∀ (b : Writer) (s : List Byte) (nn : Nat), 1 ≤ b.size → b.buf.length ≤ b.size →
      (b.err ≠ none ∨ s.length ≤ b.Available ∨ (s.length + 1 ≤ fuel ∧ 0 < b.Available) ∨
        s.length + 2 ≤ fuel) →
      ¬ ((Writer.WriteString.loop fuel b s nn).2.1.length
            > (Writer.WriteString.loop fuel b s nn).1.Available ∧
          (Writer.WriteString.loop fuel b s nn).1.err = none) := by
  induction fuel with
  | zero =>
    intro b s nn _ _ hq
    simp only [Writer.WriteString.loop]
    rintro ⟨h1, h2⟩
    rcases hq with h | h | h | h
    · exact h h2
    · omega
    · omega
    · omega
  | succ fuel ih =>
    intro b s nn hsize hbuf hq
    unfold Writer.WriteString.loop
    by_cases hc : s.length > b.Available ∧ b.err = none
    · rw [if_pos hc]
      by_cases hd : b.Buffered = 0 ∧ b.wr.stringWriter = true
      · rw [if_pos hd]
        rcases Sink.Write_cases b.wr s with ⟨h1, h2⟩ | h1
        · generalize b.wr.Write s = r at *
          obtain ⟨wr, n, err⟩ := r
          simp only at h1 h2
          subst h1 h2
          exact ih _ _ _ hsize hbuf (Or.inr (Or.inl (by simp)))
        · generalize b.wr.Write s = r at *
          obtain ⟨wr, n, err⟩ := r
          simp only at h1
          exact ih _ _ _ hsize hbuf (Or.inl h1)
      · rw [if_neg hd]
        simp only
        have hav : b.Available ≤ s.length := by omega
        have hmin : min b.Available s.length = b.Available := Nat.min_eq_left hav
        rw [hmin]
        have hfull : (b.buf ++ s.take b.Available).length = b.size := by
          simp only [List.length_append, List.length_take, Writer.Available] at *
          omega
        obtain ⟨f1, f2, f3⟩ :=
          Writer.Flush_cases ({ b with buf := b.buf ++ s.take b.Available } : Writer)
        simp only at f1 f2
        refine ih _ _ _ (by omega) (by omega) ?_
        rcases f3 with f3 | f3
        · exact Or.inl f3
        · right; right; left
          simp only [List.length_drop, Writer.Available, f3, List.length_nil] at *
          rcases hq with h | h | h | h
          · exact absurd hc.2 h
          · omega
          · omega
          · omega
    · rw [if_neg hc]
      exact hc

/-- The loop of `(*bufio.Writer).WriteString` leaves by its own condition:
with the `len(s) + 2` rounds of the model, either an error is set or the
rest of the string fits the buffer, for every underlying writer. -/
theorem Writer.WriteString_fuel (b : Writer) (s : List Byte) (hsize : 1 ≤ b.size)
    (hbuf : b.buf.length ≤ b.size) :
    (Writer.WriteString.loop (s.length + 2) b s 0).1.err ≠ none ∨
      (Writer.WriteString.loop (s.length + 2) b s 0).2.1.length
        ≤ (Writer.WriteString.loop (s.length + 2) b s 0).1.Available := by
  have h := Writer.WriteString_loop_exits (s.length + 2) b s 0 hsize hbuf
    (Or.inr (Or.inr (Or.inr (Nat.le_refl _))))
  by_cases he : (Writer.WriteString.loop (s.length + 2) b s 0).1.err = none
  · right
    by_contra hlen
    exact h ⟨by omega, he⟩
  · exact Or.inl he

/-- The digit loop of `formatBits` never runs out of fuel: any fuel above
`u` gives the same text. -/
theorem formatBits_fuel (u fuel : Nat) (h : u < fuel) : formatBits fuel u [] = formatNat u := by
  rw [formatBits_acc u fuel [] h, List.append_nil]

/-! ## Decoder failures -/

theorem DecodeString_scan_stop (ds : List Byte) (hd : ∀ b ∈ ds, isDigit b = true) (b : Byte)
    (hb : isDigit b = false) (hc : b ≠ ch ':') (rest : List Byte) :
    ∀ acc, DecodeString.scan acc (ds ++ b :: rest) = (some Error.ErrCol, acc ++ ds, ⟨rest⟩) := by
  induction ds with
  | nil =>
    intro acc
    simp [DecodeString.scan, hb, hc]
  | cons x t ih =>
    intro acc
    have hx : isDigit x = true := hd x (by simp)
    have ht : ∀ y ∈ t, isDigit y = true := fun y hy => hd y (by simp [hy])
    simp [DecodeString.scan, hx, ih ht]

/-- C11. For every input that consists of one or more ASCII digits followed
by a byte that is neither a digit nor a colon, whatever comes after it,
`DecodeString` fails with `ErrCol` ("expect colon") and returns the empty
string. -/
theorem DecodeString_missing_colon (ds : List Byte) (_hne : ds ≠ [])
    (hd : ∀ b ∈ ds, isDigit b = true) (b : Byte) (hb : isDigit b = false) (hc : b ≠ ch ':')
    (rest : List Byte) :
    DecodeString ⟨ds ++ b :: rest⟩ = some ⟨[], some Error.ErrCol, ⟨rest⟩⟩ ∧
      Error.text Error.ErrCol = "expect colon" := by
  have h := DecodeString_scan_stop ds hd b hb hc rest []
  refine ⟨?_, rfl⟩
  unfold DecodeString
  simp only
  rw [h]

/-- C11, at the input `12x7`. -/
theorem DecodeString_missing_colon_witness :
    bytes "12" ≠ [] ∧ (∀ b ∈ bytes "12", isDigit b = true) ∧ isDigit (ch 'x') = false ∧
      ch 'x' ≠ ch ':' ∧
      (DecodeString ⟨bytes "12" ++ ch 'x' :: bytes "7"⟩
          = some ⟨[], some Error.ErrCol, ⟨bytes "7"⟩⟩ ∧
        Error.text Error.ErrCol = "expect colon") :=
  ⟨by decide, by decide, by decide, by decide,
    DecodeString_missing_colon (bytes "12") (by decide) (by decide) (ch 'x') (by decide)
      (by decide) (bytes "7")⟩

theorem ReadAtLeast_short (payload : List Byte) (n : Nat) (h : payload.length < n) :
    ReadAtLeast ⟨payload⟩ (List.replicate n 0)
      = (payload ++ List.replicate (n - payload.length) 0,
          some (if payload = [] then Error.EOF else Error.ErrUnexpectedEOF), ⟨[]⟩) := by
  have hle : payload.length ≤ n := by omega
  have htake : payload.take n = payload := List.take_of_length_le hle
  have hdrop : payload.drop n = [] := List.drop_of_length_le hle
  cases payload with
  | nil => simp [ReadAtLeast]; omega
  | cons x t =>
    simp only [ReadAtLeast, List.length_replicate, htake, hdrop]
    simp
    simp at h
    omega

theorem ReadAtLeast_err (payload : List Byte) (n : Nat)
    (h : (ReadAtLeast ⟨payload⟩ (List.replicate n 0)).2.1 ≠ none) : payload.length < n := by
  by_contra hlen
  apply h
  have : min n payload.length ≥ n := by omega
  simp [ReadAtLeast, this]

theorem makeBytes_some (num : Int) (buf : List Byte) (h : makeBytes num = some buf) :
    0 ≤ num ∧ num.toNat ≤ maxAlloc ∧ buf = List.replicate num.toNat 0 := by
  unfold makeBytes at h
  by_cases hc : 0 ≤ num ∧ num.toNat ≤ maxAlloc
  · rw [if_pos hc] at h
    exact ⟨hc.1, hc.2, (Option.some.inj h).symm⟩
  · rw [if_neg hc] at h
    exact absurd h (by simp)

theorem Atoi_digits_nonneg (ds : List Byte) (hd : ∀ b ∈ ds, isDigit b = true)
    (h : (Atoi ds).2 = none) : 0 ≤ (Atoi ds).1 := by
  cases ds with
  | nil => simp [Atoi] at h
  | cons b t =>
    have hb := isDigit_ne_sign b (hd b (by simp))
    revert h
    simp only [Atoi, List.head?_cons, Option.some.injEq, hb.1, hb.2, or_self, if_false,
      decide_False, Bool.false_eq_true]
    cases digitsValue 0 (b :: t) with
    | none => simp
    | some v =>
      by_cases hv : v < 9223372036854775808
      · simp [hv]
      · simp [hv]

theorem DecodeString_short_payload (ds payload : List Byte)
    (hd : ∀ b ∈ ds, isDigit b = true) (hat : (Atoi ds).2 = none)
    (hmax : (Atoi ds).1.toNat ≤ maxAlloc) (hshort : payload.length < (Atoi ds).1.toNat) :
    DecodeString ⟨ds ++ ch ':' :: payload⟩
      = some ⟨payload ++ List.replicate ((Atoi ds).1.toNat - payload.length) 0,
          some (if payload = [] then Error.EOF else Error.ErrUnexpectedEOF), ⟨[]⟩⟩ := by
  have hscan := DecodeString_scan_digits ds hd payload []
  have hnn := Atoi_digits_nonneg ds hd hat
  have hmk : makeBytes (Atoi ds).1 = some (List.replicate (Atoi ds).1.toNat 0) := by
    simp [makeBytes, hnn, hmax]
  have hread := ReadAtLeast_short payload (Atoi ds).1.toNat hshort
  unfold DecodeString
  simp only
  rw [hscan]
  simp only [List.nil_append]
  rcases hA : Atoi ds with ⟨num, e⟩
  rw [hA] at hat hmk hread
  simp only at hat hmk hread
  subst hat
  simp only
  rw [hmk]
  simp only
  rw [hread]

theorem DecodeString_alloc_panic (ds payload : List Byte)
    (hd : ∀ b ∈ ds, isDigit b = true) (hat : (Atoi ds).2 = none)
    (hmax : maxAlloc < (Atoi ds).1.toNat) :
    DecodeString ⟨ds ++ ch ':' :: payload⟩ = none := by
  have hscan := DecodeString_scan_digits ds hd payload []
  have hmk : makeBytes (Atoi ds).1 = none := by
    have : ¬ (Atoi ds).1.toNat ≤ maxAlloc := by omega
    simp [makeBytes, this]
  unfold DecodeString
  simp only
  rw [hscan]
  simp only [List.nil_append]
  rcases hA : Atoi ds with ⟨num, e⟩
  rw [hA] at hat hmk
  simp only at hat hmk
  subst hat
  simp only
  rw [hmk]

/-- C12, at the failing input `9223372036854775807:abc`: the length parses
(it is the largest `int`), the payload `abc` is shorter, and the allocation
at line 120 panics before a byte of the payload is read, so `DecodeString`
returns nothing, hence no error. At `5:ab`, and for every length that the
runtime can allocate, it returns `io.ErrUnexpectedEOF`. -/
theorem DecodeString_huge_length_panics :
    Atoi (bytes "9223372036854775807") = (9223372036854775807, none) ∧
      (bytes "abc").length < 9223372036854775807 ∧
      makeBytes 9223372036854775807 = none ∧
      DecodeString ⟨bytes "9223372036854775807:abc"⟩ = none ∧
      DecodeString ⟨bytes "5:ab"⟩
        = some ⟨bytes "ab" ++ [0, 0, 0], some Error.ErrUnexpectedEOF, ⟨[]⟩⟩ := by
  decide

/-- C13. For every input whose first byte is not `i`, the empty stream
included, `DecodeInt` fails with `ErrEpI` ("expect char i") and returns 0. -/
theorem DecodeInt_expects_i (input : List Byte) (h : input.head? ≠ some (ch 'i')) :
    (DecodeInt ⟨input⟩).err = some Error.ErrEpI ∧ (DecodeInt ⟨input⟩).val = 0 ∧
      Error.text Error.ErrEpI = "expect char i" := by
  cases input with
  | nil => exact ⟨by decide, by decide, rfl⟩
  | cons b t =>
    have hb : b ≠ ch 'i' := by
      intro hb
      exact h (by simp [hb])
    simp [DecodeInt, Reader.ReadByte, hb]
    rfl

/-- C13, at the empty stream and at the input `42e`. -/
theorem DecodeInt_expects_i_witness :
    ([] : List Byte).head? ≠ some (ch 'i') ∧ (bytes "42e").head? ≠ some (ch 'i') ∧
      (DecodeInt ⟨[]⟩).err = some Error.ErrEpI ∧
      (DecodeInt ⟨bytes "42e"⟩).err = some Error.ErrEpI :=
  ⟨by decide, by decide, (DecodeInt_expects_i [] (by decide)).1,
    (DecodeInt_expects_i (bytes "42e") (by decide)).1⟩

theorem DecodeInt_after_i (rest : List Byte) :
    (DecodeInt ⟨ch 'i' :: rest⟩).err = some Error.ErrCol := by
  have hguard : ∀ b : Byte, b < ch '0' ∨ b > ch '9' ∨ b ≠ ch '-' := by
    intro b
    by_cases hb : b = ch '-'
    · subst hb
      exact Or.inl (by decide)
    · exact Or.inr (Or.inr hb)
  cases rest with
  | nil => decide
  | cons b t =>
    have hg := hguard b
    simp [DecodeInt, Reader.ReadByte, hg]

/-- C14. `DecodeInt` returns a non-nil error for every non-canonical integer
encoding: the lone sign `i-e`, the negative zero `i-0e`, and every `i`, an
optional `-`, a digit run longer than one character that starts with `0`,
then `e` (such as `i03e`). -/
theorem DecodeInt_noncanonical :
    (DecodeInt ⟨bytes "i-e"⟩).err ≠ none ∧ (DecodeInt ⟨bytes "i-0e"⟩).err ≠ none ∧
      ∀ (sign ds : List Byte), (sign = [] ∨ sign = [ch '-']) →
        (∀ b ∈ ds, isDigit b = true) → 1 < ds.length → ds.head? = some (ch '0') →
          (DecodeInt ⟨ch 'i' :: (sign ++ ds ++ [ch 'e'])⟩).err ≠ none := by
  refine ⟨by decide, by decide, ?_⟩
  intro sign ds _ _ _ _
  rw [DecodeInt_after_i]
  simp

/-- C14, at the inputs `i03e` and `i-03e`. -/
theorem DecodeInt_noncanonical_witness :
    (∀ b ∈ bytes "03", isDigit b = true) ∧ 1 < (bytes "03").length ∧
      (bytes "03").head? = some (ch '0') ∧
      (DecodeInt ⟨ch 'i' :: ([] ++ bytes "03" ++ [ch 'e'])⟩).err ≠ none ∧
      (DecodeInt ⟨ch 'i' :: ([ch '-'] ++ bytes "03" ++ [ch 'e'])⟩).err ≠ none :=
  ⟨by decide, by decide, by decide,
    DecodeInt_noncanonical.2.2 [] (bytes "03") (Or.inl rfl) (by decide) (by decide) (by decide),
    DecodeInt_noncanonical.2.2 [ch '-'] (bytes "03") (Or.inr rfl) (by decide) (by decide)
      (by decide)⟩

/-- C17. Self-delimiting decode: for every string `s` (at most `maxAlloc`
bytes, as every Go string) and every byte sequence `rest`, `DecodeString`
called on a `*bufio.Reader` that holds the bytes `EncodeString` writes for
`s`, followed by `rest`, returns `s` with a nil error and leaves exactly
`rest` unread. -/
theorem DecodeString_self_delimiting (s rest : List Byte) (hlen : s.length ≤ maxAlloc)
    (w : GoWriter) (hw : w.healthy = true) (hempty : w.written = []) :
    DecodeString ⟨(EncodeString w s).1.written ++ rest⟩ = some ⟨s, none, ⟨rest⟩⟩ := by
  obtain ⟨_, h2, _, _⟩ := EncodeString_healthy w s hw
  rw [h2, hempty, List.nil_append]
  exact DecodeString_stringWire s rest hlen

/-- C17, at `spam` followed by the bytes `i42e`. -/
theorem DecodeString_self_delimiting_witness :
    (bytes "spam").length ≤ maxAlloc ∧ (GoWriter.raw Sink.fresh).healthy = true ∧
      (GoWriter.raw Sink.fresh).written = [] ∧
      DecodeString ⟨(EncodeString (.raw Sink.fresh) (bytes "spam")).1.written ++ bytes "i42e"⟩
        = some ⟨bytes "spam", none, ⟨bytes "i42e"⟩⟩ :=
  ⟨by decide, rfl, rfl,
    DecodeString_self_delimiting (bytes "spam") (bytes "i42e") (by decide) (.raw Sink.fresh)
      rfl rfl⟩

theorem DecodeString_scan_none (input : List Byte) :
    ∀ (acc nb : List Byte) (br : Reader), DecodeString.scan acc input = (none, nb, br) →
      ∃ ds, input = ds ++ ch ':' :: br.unread ∧ (∀ b ∈ ds, isDigit b = true) ∧
        nb = acc ++ ds := by
  induction input with
  | nil =>
    intro acc nb br h
    simp [DecodeString.scan] at h
  | cons x t ih =>
    intro acc nb br h
    by_cases hx : isDigit x = true
    · simp only [DecodeString.scan, hx, if_true] at h
      obtain ⟨ds, h1, h2, h3⟩ := ih _ _ _ h
      refine ⟨x :: ds, by rw [h1]; rfl, ?_, by rw [h3]; simp⟩
      intro b hb
      rcases List.mem_cons.mp hb with hb | hb
      · rw [hb]; exact hx
      · exact h2 b hb
    · by_cases hc : x = ch ':'
      · subst hc
        simp only [DecodeString.scan, hx] at h
        simp at h
        obtain ⟨h1, h2⟩ := h
        subst h1 h2
        exact ⟨[], by simp, by simp, by simp⟩
      · simp [DecodeString.scan, hx, hc] at h

/-- C16, as the code behaves: on the truncated input `5:ab` `DecodeString`
returns `io.ErrUnexpectedEOF` together with the five-byte buffer `ab` plus
three zero bytes, not the empty string. -/
theorem DecodeString_partial_result :
    DecodeString ⟨bytes "5:ab"⟩
        = some ⟨bytes "ab" ++ [0, 0, 0], some Error.ErrUnexpectedEOF, ⟨[]⟩⟩ ∧
      (DecodeString ⟨bytes "5:ab"⟩).map Decoded.err ≠ some none ∧
      (DecodeString ⟨bytes "5:ab"⟩).map Decoded.val ≠ some [] := by
  decide

/-- C16, amended. (1) Whenever `DecodeString` returns a non-nil error and
the input is not a digit run that parses as a length followed by a colon (end
of stream before the colon, a byte that is neither digit nor colon, an
unparsable length), the string it returns is empty. (2) On every input that
is a digit run that parses to a length `N` the runtime can allocate, a colon
and a payload of fewer than `N` bytes, it returns the `N`-byte buffer, the
payload followed by zero bytes, with `io.EOF` for an empty payload and
`io.ErrUnexpectedEOF` otherwise. (3) These are all the failures: a non-nil
error on an input whose length prefix parses means the payload is shorter
than `N`. -/
theorem DecodeString_error_value :
    (∀ (input : List Byte) (d : Decoded (List Byte)),
      DecodeString ⟨input⟩ = some d → d.err ≠ none →
      (¬ ∃ ds payload, input = ds ++ ch ':' :: payload ∧ (∀ b ∈ ds, isDigit b = true) ∧
          (Atoi ds).2 = none) →
      d.val = []) ∧
    (∀ (ds payload : List Byte), (∀ b ∈ ds, isDigit b = true) → (Atoi ds).2 = none →
      (Atoi ds).1.toNat ≤ maxAlloc → payload.length < (Atoi ds).1.toNat →
      DecodeString ⟨ds ++ ch ':' :: payload⟩
        = some ⟨payload ++ List.replicate ((Atoi ds).1.toNat - payload.length) 0,
            some (if payload = [] then Error.EOF else Error.ErrUnexpectedEOF), ⟨[]⟩⟩) ∧
    (∀ (ds payload : List Byte) (d : Decoded (List Byte)), (∀ b ∈ ds, isDigit b = true) →
      (Atoi ds).2 = none → DecodeString ⟨ds ++ ch ':' :: payload⟩ = some d → d.err ≠ none →
      (Atoi ds).1.toNat ≤ maxAlloc ∧ payload.length < (Atoi ds).1.toNat) := by
  refine ⟨?_, DecodeString_short_payload, ?_⟩
  · intro input d hret herr hno
    unfold DecodeString at hret
    simp only at hret
    rcases hscan : DecodeString.scan [] input with ⟨e, nb, br⟩
    rw [hscan] at hret
    cases e with
    | some e =>
      simp only [Option.some.injEq] at hret
      rw [← hret]
    | none =>
      obtain ⟨ds, h1, h2, h3⟩ := DecodeString_scan_none input [] nb br hscan
      simp only [List.nil_append] at h3
      subst h3
      simp only at hret
      rcases hat : Atoi nb with ⟨num, e2⟩
      rw [hat] at hret
      cases e2 with
      | some e =>
        simp only [Option.some.injEq] at hret
        rw [← hret]
      | none =>
        exfalso
        exact hno ⟨nb, br.unread, h1, h2, by rw [hat]⟩
  · intro ds payload d hd hat hret herr
    have hscan := DecodeString_scan_digits ds hd payload []
    unfold DecodeString at hret
    simp only at hret
    rw [hscan] at hret
    simp only [List.nil_append] at hret
    rcases hA : Atoi ds with ⟨num, e⟩
    rw [hA] at hat hret
    simp only at hat
    subst hat
    simp only at hret
    cases hmk : makeBytes num with
    | none =>
      rw [hmk] at hret
      exact absurd hret (by simp)
    | some buf =>
      rw [hmk] at hret
      obtain ⟨_, m2, m3⟩ := makeBytes_some num buf hmk
      subst m3
      simp only [Option.some.injEq] at hret
      refine ⟨m2, ReadAtLeast_err payload num.toNat ?_⟩
      rw [← hret] at herr
      exact herr

/-- C16 amended, at the inputs `x` (empty string returned) and `5:ab` (the
five-byte buffer returned). -/
theorem DecodeString_error_value_witness :
    DecodeString ⟨bytes "x"⟩ = some ⟨[], some Error.ErrCol, ⟨[]⟩⟩ ∧
      (¬ ∃ ds payload, bytes "x" = ds ++ ch ':' :: payload ∧ (∀ b ∈ ds, isDigit b = true) ∧
          (Atoi ds).2 = none) ∧
      (⟨[], some Error.ErrCol, ⟨[]⟩⟩ : Decoded (List Byte)).val = [] ∧
      (∀ b ∈ bytes "5", isDigit b = true) ∧ (Atoi (bytes "5")).2 = none ∧
      (Atoi (bytes "5")).1.toNat ≤ maxAlloc ∧ (bytes "ab").length < (Atoi (bytes "5")).1.toNat ∧
      DecodeString ⟨bytes "5" ++ ch ':' :: bytes "ab"⟩
        = some ⟨bytes "ab" ++ List.replicate ((Atoi (bytes "5")).1.toNat - (bytes "ab").length) 0,
            some (if bytes "ab" = [] then Error.EOF else Error.ErrUnexpectedEOF), ⟨[]⟩⟩ :=
  have hx : ¬ ∃ ds payload, bytes "x" = ds ++ ch ':' :: payload ∧
      (∀ b ∈ ds, isDigit b = true) ∧ (Atoi ds).2 = none := by
    rintro ⟨ds, payload, h1, h2, _⟩
    have hhead : (bytes "x").head? = some (ch 'x') := by decide
    rw [h1] at hhead
    cases ds with
    | nil =>
      simp only [List.nil_append, List.head?_cons, Option.some.injEq] at hhead
      exact absurd hhead (by decide)
    | cons b t =>
      simp only [List.cons_append, List.head?_cons, Option.some.injEq] at hhead
      have hb := h2 b (by simp)
      rw [hhead] at hb
      exact absurd hb (by decide)
  ⟨by decide, hx,
    DecodeString_error_value.1 (bytes "x") _ (by decide) (by decide) hx,
    by decide, by decide, by decide, by decide,
    DecodeString_error_value.2.1 (bytes "5") (bytes "ab") (by decide) (by decide) (by decide)
      (by decide)⟩

/-! ## Encoder failures -/

/-- C15, at the failing input: for the integer object 42 (and for every
integer object) the int `Bencode` returns does not depend on the output
stream. On a stream whose every write fails the final `Flush` fails with the
stream's error, the stream receives nothing, and `Bencode` still returns 4,
the value it returns on a stream whose writes all succeed; the empty list
returns 2 on both streams. Only the string path tells the two streams apart:
`spam` returns 0 on the failing stream and 6 on the succeeding one. -/
theorem Bencode_swallows_flush_error :
    (∀ (n : Int) (w : GoWriter),
      ((BObject.obj BINT (.int n)).Bencode w).map Prod.snd = some ((Itoa n).length + 2)) ∧
    (EncodeInt (.bufio (NewWriter Sink.broken)) 42).1.toBufio.Flush.2 = some Error.ErrSink ∧
    (BObject.obj BINT (.int 42)).Bencode (.raw Sink.broken) = some (.raw Sink.broken, 4) ∧
    ((BObject.obj BINT (.int 42)).Bencode (.raw Sink.fresh)).map Prod.snd = some 4 ∧
    ((BObject.obj BLIST (.list [])).Bencode (.raw Sink.broken)).map Prod.snd = some 2 ∧
    ((BObject.obj BLIST (.list [])).Bencode (.raw Sink.fresh)).map Prod.snd = some 2 ∧
    ((BObject.obj BSTR (.str (bytes "spam"))).Bencode (.raw Sink.broken)).map Prod.snd
      = some 0 ∧
    ((BObject.obj BSTR (.str (bytes "spam"))).Bencode (.raw Sink.fresh)).map Prod.snd
      = some 6 := by
  refine ⟨?_, by decide, by decide, by decide, by decide, by decide, by decide, by decide⟩
  intro n w
  rw [Bencode_int_eq]
  simp only [Option.map_some', EncodeInt, Option.some.injEq]
  omega

/-! ## Lemmas: the encoding is prefix free -/

theorem digit_run_unique (ds1 : List Byte) :
    ∀ (ds2 : List Byte) (x y : Byte) (a b : List Byte),
      (∀ c ∈ ds1, isDigit c = true) → (∀ c ∈ ds2, isDigit c = true) →
      isDigit x = false → isDigit y = false → ds1 ++ x :: a = ds2 ++ y :: b →
      ds1 = ds2 ∧ x = y ∧ a = b := by
  induction ds1 with
  | nil =>
    intro ds2 x y a b _ h2 hx _ h
    cases ds2 with
    | nil =>
      simp only [List.nil_append, List.cons.injEq] at h
      exact ⟨rfl, h.1, h.2⟩
    | cons d t =>
      simp only [List.nil_append, List.cons_append, List.cons.injEq] at h
      have hd := h2 d (by simp)
      rw [← h.1, hx] at hd
      exact absurd hd (by simp)
  | cons c t1 ih =>
    intro ds2 x y a b h1 h2 hx hy h
    cases ds2 with
    | nil =>
      simp only [List.nil_append, List.cons_append, List.cons.injEq] at h
      have hc := h1 c (by simp)
      rw [h.1, hy] at hc
      exact absurd hc (by simp)
    | cons d t2 =>
      simp only [List.cons_append, List.cons.injEq] at h
      obtain ⟨e1, e2, e3⟩ := ih t2 x y a b (fun z hz => h1 z (by simp [hz]))
        (fun z hz => h2 z (by simp [hz])) hx hy h.2
      exact ⟨by rw [h.1, e1], e2, e3⟩

theorem formatNat_inj (a b : Nat) (h : formatNat a = formatNat b) : a = b := by
  have ha := digitsValue_formatNat a
  rw [h, digitsValue_formatNat b] at ha
  exact (Option.some.inj ha).symm

theorem stringWire_inj (s1 s2 r1 r2 : List Byte)
    (h : stringWire s1 ++ r1 = stringWire s2 ++ r2) : s1 = s2 ∧ r1 = r2 := by
  simp only [stringWire, Itoa_ofNat, List.append_assoc, List.cons_append] at h
  obtain ⟨e1, _, e3⟩ := digit_run_unique _ _ _ _ _ _ (formatNat_digits _) (formatNat_digits _)
    (by decide) (by decide) h
  have hlen : s1.length = s2.length := formatNat_inj _ _ e1
  exact List.append_inj e3 hlen

theorem Itoa_inj (n1 n2 : Int) (r1 r2 : List Byte)
    (h : Itoa n1 ++ ch 'e' :: r1 = Itoa n2 ++ ch 'e' :: r2) : n1 = n2 ∧ r1 = r2 := by
  have hsign : ∀ (m : Nat) (t : List Byte) (u : List Byte),
      ch '-' :: t ≠ formatNat m ++ u := by
    intro m t u hm
    obtain ⟨d, tl, hd⟩ := List.exists_cons_of_ne_nil (formatNat_ne_nil m)
    have hdig := formatNat_digits m d (by rw [hd]; simp)
    rw [hd] at hm
    simp only [List.cons_append, List.cons.injEq] at hm
    rw [← hm.1] at hdig
    exact absurd hdig (by decide)
  by_cases h1 : n1 < 0 <;> by_cases h2 : n2 < 0
  · simp only [Itoa, h1, h2, if_true, List.cons_append, List.cons.injEq, true_and] at h
    obtain ⟨e1, _, e3⟩ := digit_run_unique _ _ _ _ _ _ (formatNat_digits _)
      (formatNat_digits _) (by decide) (by decide) h
    have := formatNat_inj _ _ e1
    exact ⟨by omega, e3⟩
  · simp only [Itoa, h1, h2, if_true, if_false, List.cons_append] at h
    exact absurd h (hsign _ _ _)
  · simp only [Itoa, h1, h2, if_true, if_false, List.cons_append] at h
    exact absurd h.symm (hsign _ _ _)
  · simp only [Itoa, h1, h2, if_false] at h
    obtain ⟨e1, _, e3⟩ := digit_run_unique _ _ _ _ _ _ (formatNat_digits _)
      (formatNat_digits _) (by decide) (by decide) h
    have := formatNat_inj _ _ e1
    exact ⟨by omega, e3⟩

theorem leadTag_digit (c : Byte) (h : isDigit c = true) : leadTag c = BSTR ∧ c ≠ ch 'e' := by
  have hne : ∀ x : Byte, isDigit x = false → c ≠ x := by
    intro x hx hcx
    rw [hcx, hx] at h
    exact absurd h (by simp)
  simp [leadTag, hne (ch 'i') (by decide), hne (ch 'l') (by decide), hne (ch 'd') (by decide),
    hne (ch 'e') (by decide)]

theorem wellFormed_shape (t : BObject) (h : t.wellFormed = true) :
    (∃ s, t = .obj BSTR (.str s)) ∨ (∃ n, t = .obj BINT (.int n)) ∨
      (∃ l, t = .obj BLIST (.list l) ∧ BObject.wellFormed.elems l = true) ∨
      (∃ d, t = .obj BDICT (.dict d) ∧ BObject.wellFormed.pairs d = true) := by
  match t, h with
  | .null, h => simp [BObject.wellFormed] at h
  | .obj _ .other, h => simp [BObject.wellFormed] at h
  | .obj ty (.str s), h =>
    have ht : ty = BSTR := by simpa [BObject.wellFormed] using h
    exact Or.inl ⟨s, by rw [ht]⟩
  | .obj ty (.int n), h =>
    have ht : ty = BINT := by simpa [BObject.wellFormed] using h
    exact Or.inr (Or.inl ⟨n, by rw [ht]⟩)
  | .obj ty (.list l), h =>
    have ht : ty = BLIST ∧ BObject.wellFormed.elems l = true := by
      simpa [BObject.wellFormed] using h
    exact Or.inr (Or.inr (Or.inl ⟨l, by rw [ht.1], ht.2⟩))
  | .obj ty (.dict d), h =>
    have ht : ty = BDICT ∧ BObject.wellFormed.pairs d = true := by
      simpa [BObject.wellFormed] using h
    exact Or.inr (Or.inr (Or.inr ⟨d, by rw [ht.1], ht.2⟩))

theorem wire_str (ty : BType) (s : List Byte) :
    (BObject.obj ty (.str s)).wire = stringWire s := rfl

theorem wire_int (ty : BType) (n : Int) :
    (BObject.obj ty (.int n)).wire = ch 'i' :: Itoa n ++ [ch 'e'] := rfl

theorem wire_list (ty : BType) (l : Objects) :
    (BObject.obj ty (.list l)).wire = ch 'l' :: BObject.wire.elems l ++ [ch 'e'] := rfl

theorem wire_dict (ty : BType) (d : Entries) :
    (BObject.obj ty (.dict d)).wire = ch 'd' :: BObject.wire.pairs d ++ [ch 'e'] := rfl

theorem stringWire_lead (s : List Byte) :
    ∃ c tl, stringWire s = c :: tl ∧ isDigit c = true := by
  obtain ⟨d, tl, hd⟩ := List.exists_cons_of_ne_nil (formatNat_ne_nil s.length)
  have hdig := formatNat_digits s.length d (by rw [hd]; simp)
  exact ⟨d, tl ++ ch ':' :: s, by simp [stringWire, Itoa_ofNat, hd], hdig⟩

theorem wire_lead (t : BObject) (h : t.wellFormed = true) :
    ∃ c tl, t.wire = c :: tl ∧ c ≠ ch 'e' ∧ ∃ p, t = .obj (leadTag c) p := by
  rcases wellFormed_shape t h with ⟨s, rfl⟩ | ⟨n, rfl⟩ | ⟨l, rfl, _⟩ | ⟨d, rfl, _⟩
  · obtain ⟨c, tl, h1, h2⟩ := stringWire_lead s
    obtain ⟨h3, h4⟩ := leadTag_digit c h2
    exact ⟨c, tl, by rw [wire_str, h1], h4, _, by rw [h3]⟩
  · exact ⟨ch 'i', _, rfl, by decide, _, rfl⟩
  · exact ⟨ch 'l', _, rfl, by decide, _, rfl⟩
  · exact ⟨ch 'd', _, rfl, by decide, _, rfl⟩

theorem wire_tag_eq (ty1 ty2 : BType) (p1 p2 : BValue) (r1 r2 : List Byte)
    (h1 : (BObject.obj ty1 p1).wellFormed = true) (h2 : (BObject.obj ty2 p2).wellFormed = true)
    (h : (BObject.obj ty1 p1).wire ++ r1 = (BObject.obj ty2 p2).wire ++ r2) : ty1 = ty2 := by
  obtain ⟨c1, tl1, a1, _, q1, b1⟩ := wire_lead _ h1
  obtain ⟨c2, tl2, a2, _, q2, b2⟩ := wire_lead _ h2
  rw [a1, a2] at h
  simp only [List.cons_append, List.cons.injEq] at h
  injection b1 with e1 _
  injection b2 with e2 _
  rw [e1, e2, h.1]

theorem wire_inj_str (s1 : List Byte) (t2 : BObject) (h2 : t2.wellFormed = true)
    (r1 r2 : List Byte) (h : (BObject.obj BSTR (.str s1)).wire ++ r1 = t2.wire ++ r2) :
    BObject.obj BSTR (.str s1) = t2 ∧ r1 = r2 := by
  have hw1 : (BObject.obj BSTR (.str s1)).wellFormed = true := by simp [BObject.wellFormed]
  rcases wellFormed_shape t2 h2 with ⟨s, rfl⟩ | ⟨n, rfl⟩ | ⟨l, rfl, _⟩ | ⟨d, rfl, _⟩
  · rw [wire_str, wire_str] at h
    obtain ⟨e1, e2⟩ := stringWire_inj _ _ _ _ h
    exact ⟨by rw [e1], e2⟩
  · exact absurd (wire_tag_eq _ _ _ _ _ _ hw1 h2 h) (by decide)
  · exact absurd (wire_tag_eq _ _ _ _ _ _ hw1 h2 h) (by decide)
  · exact absurd (wire_tag_eq _ _ _ _ _ _ hw1 h2 h) (by decide)

theorem wire_inj_int (n1 : Int) (t2 : BObject) (h2 : t2.wellFormed = true)
    (r1 r2 : List Byte) (h : (BObject.obj BINT (.int n1)).wire ++ r1 = t2.wire ++ r2) :
    BObject.obj BINT (.int n1) = t2 ∧ r1 = r2 := by
  have hw1 : (BObject.obj BINT (.int n1)).wellFormed = true := by simp [BObject.wellFormed]
  rcases wellFormed_shape t2 h2 with ⟨s, rfl⟩ | ⟨n, rfl⟩ | ⟨l, rfl, _⟩ | ⟨d, rfl, _⟩
  · exact absurd (wire_tag_eq _ _ _ _ _ _ hw1 h2 h) (by decide)
  · rw [wire_int, wire_int] at h
    simp only [List.cons_append, List.append_assoc, List.cons.injEq, true_and,
      List.nil_append] at h
    obtain ⟨e1, e2⟩ := Itoa_inj _ _ _ _ h
    exact ⟨by rw [e1], e2⟩
  · exact absurd (wire_tag_eq _ _ _ _ _ _ hw1 h2 h) (by decide)
  · exact absurd (wire_tag_eq _ _ _ _ _ _ hw1 h2 h) (by decide)

theorem wire_inj_list (l1 : Objects) (h1 : BObject.wellFormed.elems l1 = true)
    (ih : ∀ l2 : Objects, BObject.wellFormed.elems l2 = true → ∀ r1 r2 : List Byte,
      BObject.wire.elems l1 ++ ch 'e' :: r1 = BObject.wire.elems l2 ++ ch 'e' :: r2 →
        l1 = l2 ∧ r1 = r2)
    (t2 : BObject) (h2 : t2.wellFormed = true) (r1 r2 : List Byte)
    (h : (BObject.obj BLIST (.list l1)).wire ++ r1 = t2.wire ++ r2) :
    BObject.obj BLIST (.list l1) = t2 ∧ r1 = r2 := by
  have hw1 : (BObject.obj BLIST (.list l1)).wellFormed = true := by
    simp [BObject.wellFormed, h1]
  rcases wellFormed_shape t2 h2 with ⟨s, rfl⟩ | ⟨n, rfl⟩ | ⟨l, rfl, hl⟩ | ⟨d, rfl, _⟩
  · exact absurd (wire_tag_eq _ _ _ _ _ _ hw1 h2 h) (by decide)
  · exact absurd (wire_tag_eq _ _ _ _ _ _ hw1 h2 h) (by decide)
  · rw [wire_list, wire_list] at h
    simp only [List.cons_append, List.append_assoc, List.cons.injEq, true_and,
      List.nil_append] at h
    obtain ⟨e1, e2⟩ := ih l hl r1 r2 h
    exact ⟨by rw [e1], e2⟩
  · exact absurd (wire_tag_eq _ _ _ _ _ _ hw1 h2 h) (by decide)

theorem wire_inj_dict (d1 : Entries) (h1 : BObject.wellFormed.pairs d1 = true)
    (ih : ∀ d2 : Entries, BObject.wellFormed.pairs d2 = true → ∀ r1 r2 : List Byte,
      BObject.wire.pairs d1 ++ ch 'e' :: r1 = BObject.wire.pairs d2 ++ ch 'e' :: r2 →
        d1 = d2 ∧ r1 = r2)
    (t2 : BObject) (h2 : t2.wellFormed = true) (r1 r2 : List Byte)
    (h : (BObject.obj BDICT (.dict d1)).wire ++ r1 = t2.wire ++ r2) :
    BObject.obj BDICT (.dict d1) = t2 ∧ r1 = r2 := by
  have hw1 : (BObject.obj BDICT (.dict d1)).wellFormed = true := by
    simp [BObject.wellFormed, h1]
  rcases wellFormed_shape t2 h2 with ⟨s, rfl⟩ | ⟨n, rfl⟩ | ⟨l, rfl, _⟩ | ⟨d, rfl, hd⟩
  · exact absurd (wire_tag_eq _ _ _ _ _ _ hw1 h2 h) (by decide)
  · exact absurd (wire_tag_eq _ _ _ _ _ _ hw1 h2 h) (by decide)
  · exact absurd (wire_tag_eq _ _ _ _ _ _ hw1 h2 h) (by decide)
  · rw [wire_dict, wire_dict] at h
    simp only [List.cons_append, List.append_assoc, List.cons.injEq, true_and,
      List.nil_append] at h
    obtain ⟨e1, e2⟩ := ih d hd r1 r2 h
    exact ⟨by rw [e1], e2⟩

theorem wire_elems_nil_inj (l2 : Objects) (h2 : BObject.wellFormed.elems l2 = true)
    (r1 r2 : List Byte)
    (h : BObject.wire.elems [] ++ ch 'e' :: r1 = BObject.wire.elems l2 ++ ch 'e' :: r2) :
    [] = l2 ∧ r1 = r2 := by
  cases l2 with
  | nil =>
    simp only [BObject.wire.elems, List.nil_append, List.cons.injEq, true_and] at h
    exact ⟨rfl, h⟩
  | cons e rest =>
    have he : e.wellFormed = true := by
      have := (wellFormed_elems_iff (e :: rest)).mp h2 e (by simp)
      exact this
    obtain ⟨c, tl, a1, a2, _⟩ := wire_lead e he
    simp only [BObject.wire.elems, a1, List.nil_append, List.cons_append, List.cons.injEq] at h
    exact absurd h.1.symm a2

theorem wire_elems_cons_inj (e1 : BObject) (rest1 : Objects)
    (ihe : ∀ t2 : BObject, t2.wellFormed = true → ∀ r1 r2 : List Byte,
      e1.wire ++ r1 = t2.wire ++ r2 → e1 = t2 ∧ r1 = r2)
    (ihr : ∀ l2 : Objects, BObject.wellFormed.elems l2 = true → ∀ r1 r2 : List Byte,
      BObject.wire.elems rest1 ++ ch 'e' :: r1 = BObject.wire.elems l2 ++ ch 'e' :: r2 →
        rest1 = l2 ∧ r1 = r2)
    (h1 : e1.wellFormed = true)
    (l2 : Objects) (h2 : BObject.wellFormed.elems l2 = true) (r1 r2 : List Byte)
    (h : BObject.wire.elems (e1 :: rest1) ++ ch 'e' :: r1
      = BObject.wire.elems l2 ++ ch 'e' :: r2) :
    e1 :: rest1 = l2 ∧ r1 = r2 := by
  cases l2 with
  | nil =>
    obtain ⟨c, tl, a1, a2, _⟩ := wire_lead e1 h1
    simp only [BObject.wire.elems, a1, List.nil_append, List.cons_append, List.cons.injEq] at h
    exact absurd h.1 a2
  | cons e2 rest2 =>
    have hw2 : e2.wellFormed = true ∧ BObject.wellFormed.elems rest2 = true := by
      simpa [BObject.wellFormed.elems] using h2
    simp only [BObject.wire.elems, List.append_assoc] at h
    obtain ⟨a1, a2⟩ := ihe e2 hw2.1 _ _ h
    obtain ⟨b1, b2⟩ := ihr rest2 hw2.2 r1 r2 a2
    exact ⟨by rw [a1, b1], b2⟩

theorem wire_pairs_nil_inj (d2 : Entries) (r1 r2 : List Byte)
    (h : BObject.wire.pairs [] ++ ch 'e' :: r1 = BObject.wire.pairs d2 ++ ch 'e' :: r2) :
    [] = d2 ∧ r1 = r2 := by
  cases d2 with
  | nil =>
    simp only [BObject.wire.pairs, List.nil_append, List.cons.injEq, true_and] at h
    exact ⟨rfl, h⟩
  | cons kv rest =>
    obtain ⟨k, v⟩ := kv
    obtain ⟨c, tl, a1, a2⟩ := stringWire_lead k
    simp only [BObject.wire.pairs, a1, List.nil_append, List.cons_append, List.cons.injEq] at h
    rw [← h.1] at a2
    exact absurd a2 (by decide)

theorem wire_pairs_cons_inj (k1 : List Byte) (v1 : BObject) (rest1 : Entries)
    (ihv : ∀ t2 : BObject, t2.wellFormed = true → ∀ r1 r2 : List Byte,
      v1.wire ++ r1 = t2.wire ++ r2 → v1 = t2 ∧ r1 = r2)
    (ihr : ∀ d2 : Entries, BObject.wellFormed.pairs d2 = true → ∀ r1 r2 : List Byte,
      BObject.wire.pairs rest1 ++ ch 'e' :: r1 = BObject.wire.pairs d2 ++ ch 'e' :: r2 →
        rest1 = d2 ∧ r1 = r2)
    (d2 : Entries) (h2 : BObject.wellFormed.pairs d2 = true) (r1 r2 : List Byte)
    (h : BObject.wire.pairs ((k1, v1) :: rest1) ++ ch 'e' :: r1
      = BObject.wire.pairs d2 ++ ch 'e' :: r2) :
    (k1, v1) :: rest1 = d2 ∧ r1 = r2 := by
  cases d2 with
  | nil =>
    obtain ⟨c, tl, a1, a2⟩ := stringWire_lead k1
    simp only [BObject.wire.pairs, a1, List.nil_append, List.cons_append, List.cons.injEq] at h
    rw [h.1] at a2
    exact absurd a2 (by decide)
  | cons kv rest2 =>
    obtain ⟨k2, v2⟩ := kv
    have hw2 : v2.wellFormed = true ∧ BObject.wellFormed.pairs rest2 = true := by
      simpa [BObject.wellFormed.pairs] using h2
    simp only [BObject.wire.pairs, List.append_assoc] at h
    obtain ⟨a1, a2⟩ := stringWire_inj _ _ _ _ h
    obtain ⟨b1, b2⟩ := ihv v2 hw2.1 _ _ a2
    obtain ⟨c1, c2⟩ := ihr rest2 hw2.2 r1 r2 b2
    exact ⟨by rw [a1, b1, c1], c2⟩

mutual
theorem wire_prefix_free : ∀ (t1 : BObject), t1.wellFormed = true →
    ∀ t2 : BObject, t2.wellFormed = true → ∀ r1 r2 : List Byte,
      t1.wire ++ r1 = t2.wire ++ r2 → t1 = t2 ∧ r1 = r2
  | .null, h1, _, _, _, _, _ => by simp [BObject.wellFormed] at h1
  | .obj _ .other, h1, _, _, _, _, _ => by simp [BObject.wellFormed] at h1
  | .obj ty (.str s), h1, t2, h2, r1, r2, h => by
    have ht : ty = BSTR := by simpa [BObject.wellFormed] using h1
    subst ht
    exact wire_inj_str s t2 h2 r1 r2 h
  | .obj ty (.int n), h1, t2, h2, r1, r2, h => by
    have ht : ty = BINT := by simpa [BObject.wellFormed] using h1
    subst ht
    exact wire_inj_int n t2 h2 r1 r2 h
  | .obj ty (.list l), h1, t2, h2, r1, r2, h => by
    have ht : ty = BLIST ∧ BObject.wellFormed.elems l = true := by
      simpa [BObject.wellFormed] using h1
    obtain ⟨ht, hl⟩ := ht
    subst ht
    exact wire_inj_list l hl (wire_elems_prefix_free l hl) t2 h2 r1 r2 h
  | .obj ty (.dict d), h1, t2, h2, r1, r2, h => by
    have ht : ty = BDICT ∧ BObject.wellFormed.pairs d = true := by
      simpa [BObject.wellFormed] using h1
    obtain ⟨ht, hd⟩ := ht
    subst ht
    exact wire_inj_dict d hd (wire_pairs_prefix_free d hd) t2 h2 r1 r2 h
theorem wire_elems_prefix_free : ∀ (l1 : Objects), BObject.wellFormed.elems l1 = true →
    ∀ l2 : Objects, BObject.wellFormed.elems l2 = true → ∀ r1 r2 : List Byte,
      BObject.wire.elems l1 ++ ch 'e' :: r1 = BObject.wire.elems l2 ++ ch 'e' :: r2 →
        l1 = l2 ∧ r1 = r2
  | [], _, l2, h2, r1, r2, h => wire_elems_nil_inj l2 h2 r1 r2 h
  | e :: rest, h1, l2, h2, r1, r2, h => by
    have hw : e.wellFormed = true ∧ BObject.wellFormed.elems rest = true := by
      simpa [BObject.wellFormed.elems] using h1
    exact wire_elems_cons_inj e rest (wire_prefix_free e hw.1)
      (wire_elems_prefix_free rest hw.2) hw.1 l2 h2 r1 r2 h
theorem wire_pairs_prefix_free : ∀ (d1 : Entries), BObject.wellFormed.pairs d1 = true →
    ∀ d2 : Entries, BObject.wellFormed.pairs d2 = true → ∀ r1 r2 : List Byte,
      BObject.wire.pairs d1 ++ ch 'e' :: r1 = BObject.wire.pairs d2 ++ ch 'e' :: r2 →
        d1 = d2 ∧ r1 = r2
  | [], _, d2, _, r1, r2, h => wire_pairs_nil_inj d2 r1 r2 h
  | (k, v) :: rest, h1, d2, h2, r1, r2, h => by
    have hw : v.wellFormed = true ∧ BObject.wellFormed.pairs rest = true := by
      simpa [BObject.wellFormed.pairs] using h1
    exact wire_pairs_cons_inj k v rest (wire_prefix_free v hw.1)
      (wire_pairs_prefix_free rest hw.2) d2 h2 r1 r2 h
end

/-- C18. The encoding is injective: for all well-formed `BObject` trees `v1`
and `v2` (tags among the four constants, payloads matching tags, no nil
children), if the bytes `Bencode` emits for `v1` equal the bytes it emits for
`v2`, each on a stream whose writes succeed, then `v1 = v2`. A tree carries
the order in which `range` yields the entries of each of its maps, and the
statement covers every such order for `v1` and for `v2`: equal bytes force
the same keys with the same values (met in the same order). -/
theorem Bencode_injective (v1 v2 : BObject) (h1 : v1.wellFormed = true)
    (h2 : v2.wellFormed = true) (w1 w2 : GoWriter) (hw1 : w1.healthy = true)
    (hw2 : w2.healthy = true) (he1 : w1.written = []) (he2 : w2.written = [])
    (h : (v1.Bencode w1).map (fun r => r.1.written)
      = (v2.Bencode w2).map (fun r => r.1.written)) :
    v1 = v2 := by
  obtain ⟨x1, a1, _, a3, _⟩ := Bencode_healthy v1 h1 w1 hw1
  obtain ⟨x2, b1, _, b3, _⟩ := Bencode_healthy v2 h2 w2 hw2
  rw [a1, b1] at h
  simp only [Option.map_some', Option.some.injEq] at h
  rw [a3, b3, he1, he2, List.nil_append, List.nil_append] at h
  have hh : v1.wire ++ [] = v2.wire ++ [] := by rw [List.append_nil, List.append_nil]; exact h
  exact (wire_prefix_free v1 h1 v2 h2 [] [] hh).1

/-- C18, at a dictionary that holds a list, encoded on two fresh streams. -/
theorem Bencode_injective_witness :
    (BObject.obj BDICT (.dict [(bytes "a", BObject.obj BLIST
        (.list [BObject.obj BSTR (.str (bytes "xy")), BObject.obj BINT (.int 7)]))])).wellFormed
      = true ∧ (GoWriter.raw Sink.fresh).healthy = true ∧
    (GoWriter.raw Sink.fresh).written = [] ∧
    BObject.obj BDICT (.dict [(bytes "a", BObject.obj BLIST
        (.list [BObject.obj BSTR (.str (bytes "xy")), BObject.obj BINT (.int 7)]))])
      = BObject.obj BDICT (.dict [(bytes "a", BObject.obj BLIST
        (.list [BObject.obj BSTR (.str (bytes "xy")), BObject.obj BINT (.int 7)]))]) :=
  ⟨by decide, rfl, rfl,
    Bencode_injective _ _ (by decide) (by decide) (.raw Sink.fresh) (.raw Sink.fresh) rfl rfl
      rfl rfl rfl⟩

end bencode
